import Mathlib


/-!
Verification development for the screwdb B+tree engine
(src/internal/c/screwdb/btree.c).

The C code is shallowly embedded: byte strings become lists of naturals
(each in 0..255, compared unsigned, as memcmp does), pure C helpers become
Lean functions of the same shape, and the stateful transaction layer
becomes explicit state passing over structures mirroring struct btree,
struct btree_txn and struct bt_meta.  Machine integers are modelled as
Nat/Int; overflow never matters for the fields involved here (page
numbers, counters) except where explicitly noted.

Loops are embedded either structurally or with an explicit fuel argument
that strictly bounds the iteration count of the corresponding C loop, so
that every definition is executable and every concrete run can be checked
by the kernel.

Names follow btree.c.  Identifiers that in C end in the word after the
underscore that the Lean tooling reserves are abbreviated with pfx
(for example find_common_pfx embeds find_common_prefix).
-/

/-! ## Bytes and the canonical comparison (btree.c lines 309-321) -/

/-- A byte string: list of byte values (0..255, compared as unsigned). -/
abbrev Bytes := List Nat

/-- Sign of memcmp over the first n bytes of two buffers.  The C call
memcmp(s1, s2, n) in memncmp only ever inspects bytes up to the first
difference inside the shorter valid region (see the guards in memncmp),
so the fallback value when a buffer runs out is never reached by the
embedded callers; it is fixed to 0. -/
def memcmpN : Bytes → Bytes → Nat → Int
  | _, _, 0 => 0
  | a :: as, b :: bs, n + 1 =>
      if a < b then -1 else if b < a then 1 else memcmpN as bs n
  | _, _, _ + 1 => 0

/-- memncmp from btree.c lines 309-317: unequal-length memcmp.  A strict
byte-prefix compares less; otherwise the first differing byte decides.
The result is the sign of the C return value. -/
def memncmp (s1 s2 : Bytes) : Int :=
  if s1.length < s2.length ∧ memcmpN s1 s2 s1.length = 0 then -1
  else if s1.length > s2.length ∧ memcmpN s1 s2 s2.length = 0 then 1
  else memcmpN s1 s2 s1.length

/-- btree_cmp from btree.c lines 319-321: the engine's canonical key
comparison is memncmp on the raw bytes. -/
def btree_cmp (a b : Bytes) : Int :=
  memncmp a b

/-- Structural lexicographic comparator used as a proof-side normal form
for memncmp (shown equal to it in memncmp_eq_lexCmp). -/
def lexCmp : Bytes → Bytes → Int
  | [], [] => 0
  | [], _ :: _ => -1
  | _ :: _, [] => 1
  | a :: as, b :: bs =>
      if a < b then -1 else if b < a then 1 else lexCmp as bs

/-- Strict byte-prefix: a is a proper initial segment of b. -/
def strictPfx (a b : Bytes) : Prop :=
  a.length < b.length ∧ b.take a.length = a

/-! ## Separator reduction (btree.c lines 2235-2254) -/

/-- The scan loop of bt_reduce_separator: count equal leading bytes,
stopping at the end of either buffer.  (The C loop tests the byte
equality before the bounds check, so with an empty input it would read
out of bounds; keys handed to it by btree_split are never empty.) -/
def sepScan : Bytes → Bytes → Nat
  | a :: as, b :: bs => if a = b then sepScan as bs + 1 else 0
  | _, _ => 0

/-- bt_reduce_separator: reduce the length of the separator sep to the
minimum length that still makes it sort strictly greater than minKey
(which the caller guarantees sorts less than sep).  The C code sets
sep->size = n + 1 where n is the scan count, keeping the leading bytes. -/
def bt_reduce_separator (minKey sep : Bytes) : Bytes :=
  sep.take (sepScan minKey sep + 1)

/-! ## Size constants and the overflow-page machinery
(btree.c lines 53-65, 91, 222-233, 1579-1629, 1632-1708) -/

/-- PAGEHDRSZ: offsetof(struct page, ptrs) = 4 (pgno) + 4 (flags) + 4
(bounds union). -/
def PAGEHDRSZ : Nat := 12

/-- NODESIZE: offsetof(struct node, data) = 4 (union) + 2 (ksize) + 1
(flags), packed. -/
def NODESIZE : Nat := 7

def BT_MINKEYS : Nat := 4

def MAXKEYSIZE : Nat := 255

/-- P_INVALID = 0xFFFFFFFF. -/
def P_INVALID : Nat := 4294967295

/-- sizeof(pgno_t). -/
def PGNOSZ : Nat := 4

/-- sizeof(indx_t). -/
def INDXSZ : Nat := 2

/-- bt_leaf_size (btree.c lines 1579-1590): bytes a leaf node will take on
a page, plus one ptrs slot; a payload of at least psize / BT_MINKEYS
bytes shrinks to a 4-byte overflow page number. -/
def bt_leaf_size (psize : Nat) (key data : Bytes) : Nat :=
  let sz := NODESIZE + key.length + data.length
  let sz2 := if psize / BT_MINKEYS ≤ data.length
    then sz - (data.length - PGNOSZ) else sz
  sz2 + INDXSZ

/-- bt_branch_size (btree.c lines 1592-1594). -/
def bt_branch_size (key : Bytes) : Nat :=
  NODESIZE + key.length + INDXSZ

/-- An overflow page as written by btree_write_overflow_data: its page
number, its p_next_pgno link (0 terminates the chain) and the data bytes
stored after the page header. -/
structure OvPage where
  pgno : Nat
  nextPgno : Nat
  content : Bytes
  deriving DecidableEq

/-- Loop body of btree_write_overflow_data (btree.c lines 1596-1629),
made structural on a fuel bounding the iteration count.  Each iteration
stores up to maxsz = psize - PAGEHDRSZ bytes in the current page and
allocates the next page (page numbers are consecutive, as
btree_new_page hands out bt->txn->next_pgno++) iff more than maxsz bytes
remain.  One iteration consumes at least one byte whenever maxsz > 0, so
fuel = data.length makes the embedding exact. -/
def writeOvGo : Nat → Nat → Nat → Bytes → List OvPage
  | 0, _, _, _ => []
  | _ + 1, _, _, [] => []
  | fuel + 1, maxsz, pgno, b :: bs =>
      let data := b :: bs
      let sz := min data.length maxsz
      let nxt := if maxsz < data.length then pgno + 1 else 0
      ⟨pgno, nxt, data.take sz⟩ :: writeOvGo fuel maxsz (pgno + 1) (data.drop sz)

/-- btree_write_overflow_data: write data into the overflow chain whose
head page (already allocated by btree_add_node) has number headPgno. -/
def btree_write_overflow_data (maxsz headPgno : Nat) (data : Bytes) :
    List OvPage :=
  writeOvGo data.length maxsz headPgno data

/-- What btree_add_node (btree.c lines 1632-1708) stores for a leaf node:
the prefix-stripped key, the n_dsize field, the F_BIGDATA flag, and the
payload, which is either the inline data or the head overflow page
number. -/
structure LeafRec where
  key : Bytes
  dsize : Nat
  big : Bool
  payload : Bytes ⊕ Nat
  deriving DecidableEq

/-- The leaf branch of btree_add_node for a fresh put (incoming flags 0):
when data.size is at least psize / BT_MINKEYS the payload goes to a fresh
overflow chain starting at page nextPgno and the node keeps only that
page number; n_dsize always records the full logical size. -/
def btree_add_node_leaf (psize nextPgno : Nat) (key data : Bytes) :
    LeafRec × List OvPage :=
  if psize / BT_MINKEYS ≤ data.length then
    (⟨key, data.length, true, Sum.inr nextPgno⟩,
      btree_write_overflow_data (psize - PAGEHDRSZ) nextPgno data)
  else
    (⟨key, data.length, false, Sum.inl data⟩, [])

/-- The singly-linked chain shape: each page links to the next page in
the list and the last page carries link 0. -/
def linksOk : List OvPage → Prop
  | [] => True
  | [p] => p.nextPgno = 0
  | p :: q :: rest => p.nextPgno = q.pgno ∧ linksOk (q :: rest)

/-! ## Meta pages and commit
(btree.c lines 110-123, 196-220, 596-683, 758-790) -/

/-- Errno values the engine surfaces.  The spec names them by condition:
INVALID-ARGUMENT = EINVAL, NOT-FOUND = ENOENT, BUSY = EBUSY,
STALE = ESTALE, PERM = EPERM. -/
inductive Errno
  | EINVAL
  | ENOENT
  | EPERM
  | EBUSY
  | ESTALE
  | EIO
  deriving DecidableEq

/-- A call outcome: BT_SUCCESS, or BT_FAIL together with errno. -/
inductive BtRc
  | ok
  | fail (e : Errno)
  deriving DecidableEq

/-- struct bt_meta (btree.c lines 110-123) minus created_at and the
SHA-256 hash: the timestamp is wall-clock input and the hash is a pure
function of the remaining bytes, neither affects the claims here. -/
structure BtMeta where
  flags : Nat
  root : Nat
  prev_meta : Nat
  branch_pages : Nat
  leaf_pages : Nat
  overflow_pages : Nat
  revisions : Nat
  depth : Nat
  entries : Nat
  deriving DecidableEq

/-- A page of the file image as far as commit is concerned; pages other
than meta pages are tracked by page number only. -/
inductive FPage
  | dataPage (pgno : Nat)
  | metaPage (pgno : Nat) (body : BtMeta)
  deriving DecidableEq

/-- The fields of struct btree that commit touches.  file is the list of
pages after the header page, in file order; size is bt->size in bytes. -/
structure DbC where
  file : List FPage
  size : Nat
  psize : Nat
  meta : BtMeta
  fixpadding : Bool
  deriving DecidableEq

/-- The fields of struct btree_txn that commit reads.  current embeds the
txn == bt->txn identity check; dirty_queue holds the page numbers of the
dirty pages in queue order. -/
structure TxnC where
  root : Nat
  next_pgno : Nat
  rdonly : Bool
  errored : Bool
  current : Bool
  dirty_queue : List Nat
  deriving DecidableEq

/-- btree_write_meta (btree.c lines 758-790): allocate a fresh META page
(btree_new_page hands out txn.next_pgno), fill it with prev_meta set to
the in-memory meta's ROOT page number, the new root, flags, bumped
revisions and the counters, append it to the file and install it as the
in-memory meta.  (The C code pushes the page on the dirty queue inside
btree_new_page and pops it again at line 780; the net queue effect is
nil and is not modelled.) -/
def btree_write_meta (db : DbC) (txn : TxnC) (root flags : Nat) :
    DbC × TxnC :=
  let pgno := txn.next_pgno
  let m : BtMeta :=
    { flags := flags, root := root, prev_meta := db.meta.root,
      branch_pages := db.meta.branch_pages,
      leaf_pages := db.meta.leaf_pages,
      overflow_pages := db.meta.overflow_pages,
      revisions := db.meta.revisions + 1,
      depth := db.meta.depth, entries := db.meta.entries }
  ({ db with
      meta := m,
      file := db.file ++ [FPage.metaPage pgno m],
      size := db.size + db.psize },
    { txn with next_pgno := pgno + 1 })

/-- btree_txn_commit (btree.c lines 596-683).  A read-only transaction is
rejected with EPERM, a foreign or errored one with EINVAL; an empty
dirty queue short-circuits to done without touching the file; otherwise
the FIXPADDING truncation runs, the dirty pages are appended (the
BT_COMMIT_PAGES = 64 batching of writev is unobservable when every write
succeeds; I/O failures are not modelled), and a new meta page is written.
Abort paths leave the modelled durable state unchanged. -/
def btree_txn_commit (db : DbC) (txn : TxnC) : BtRc × DbC :=
  if txn.rdonly then (BtRc.fail Errno.EPERM, db)
  else if ¬ txn.current then (BtRc.fail Errno.EINVAL, db)
  else if txn.errored then (BtRc.fail Errno.EINVAL, db)
  else if txn.dirty_queue = [] then (BtRc.ok, db)
  else
    let db1 :=
      if db.fixpadding then
        { db with
            size := db.size + (db.psize - db.size % db.psize),
            fixpadding := false }
      else db
    let db2 := { db1 with
      file := db1.file ++ txn.dirty_queue.map FPage.dataPage,
      size := db1.size + txn.dirty_queue.length * db1.psize }
    (BtRc.ok, (btree_write_meta db2 txn txn.root 0).1)

/-- The page number of the meta page closest to end-of-file, if any. -/
def lastMetaPgno (file : List FPage) : Option Nat :=
  file.foldl
    (fun acc p => match p with
      | FPage.metaPage n _ => some n
      | FPage.dataPage _ => acc)
    none

/-- Pristine database state right after btree_write_header: only the
header page exists, the in-memory meta has root = P_INVALID
(btree_open_fd, btree.c line 909). -/
def dbC7_0 : DbC :=
  { file := [], size := 4096, psize := 4096,
    meta :=
      { flags := 0, root := P_INVALID, prev_meta := 0,
        branch_pages := 0, leaf_pages := 0, overflow_pages := 0,
        revisions := 0, depth := 0, entries := 0 },
    fixpadding := false }

/-- First write transaction: one dirty leaf page 1 became the root. -/
def txnC7_1 : TxnC :=
  { root := 1, next_pgno := 2, rdonly := false, errored := false,
    current := true, dirty_queue := [1] }

/-- State after the first commit: leaf page 1 and a meta page at pgno 2. -/
def dbC7_1 : DbC := (btree_txn_commit dbC7_0 txnC7_1).2

/-- Second write transaction: the touched copy of the root is page 3. -/
def txnC7_2 : TxnC :=
  { root := 3, next_pgno := 4, rdonly := false, errored := false,
    current := true, dirty_queue := [3] }

/-- State after the second commit. -/
def dbC7_2 : DbC := (btree_txn_commit dbC7_1 txnC7_2).2

/-! ## Node-level tree model
(btree.c lines 125-204, 370-374, 983-1233, 1293-1331)

The committed tree is modelled with pages inlined: a LEAF page is its
node list, a BRANCH page its (separator suffix, child) list.  Stored
keys are prefix-relative exactly as on disk; the per-page prefix is not
stored but derived while descending, mirroring find_common_prefix.
Page numbers and the copy-on-write touch protocol are not modelled:
mpage_touch renumbers pages without changing any page content, so the
logical tree is unaffected. -/

/-- A leaf node: stored (prefix-relative) key suffix, logical data and
the F_BIGDATA flag (with F_BIGDATA the page holds a 4-byte overflow head
page number and n_dsize bytes live on the chain; btree_read_data returns
the logical bytes either way, which dval records). -/
structure LNode where
  ksfx : Bytes
  dval : Bytes
  big : Bool
  deriving DecidableEq

/-- A page with its subtrees inlined. -/
inductive BTree
  | leaf (ns : List LNode)
  | branch (ns : List (Bytes × BTree))

mutual

/-- Height of a tree; used as fuel for the descent loops (every descent
visits at most hgt pages). -/
def hgt : BTree → Nat
  | .leaf _ => 1
  | .branch ns => hgtL ns + 1

def hgtL : List (Bytes × BTree) → Nat
  | [] => 0
  | n :: rest => max (hgt n.2) (hgtL rest)

end

/-- The bracket context of a page, as maintained by find_common_prefix
(btree.c lines 1091-1123) walking the parent chain: lb is the expanded
key of the closest left separator above the page, ub of the closest
right separator, and pfx the page's effective prefix. -/
structure Ctx where
  lb : Option Bytes
  ub : Option Bytes
  pfx : Bytes
  deriving DecidableEq

/-- The root page's context: no brackets, empty prefix. -/
def rootCtx : Ctx := { lb := none, ub := none, pfx := [] }

/-- common_prefix (btree.c lines 323-349): longest common prefix, empty
when either input is empty. -/
def common_pfx : Bytes → Bytes → Bytes
  | [], _ => []
  | _, [] => []
  | a :: as, b :: bs => if a = b then a :: common_pfx as bs else []

/-- Context of child i of a branch page with nodes ns and context cx.
This is find_common_prefix seen top-down: descending into child i > 0
makes separator i the closest left bracket; descending into child
i < numkeys - 1 makes separator i+1 the closest right bracket; brackets
are expanded with the page's own prefix (expand_prefix); the effective
prefix is their common prefix when both exist, otherwise the parent's
prefix is inherited. -/
def childCtx (cx : Ctx) (ns : List (Bytes × BTree)) (i : Nat) : Ctx :=
  let lb2 := if 0 < i then
      match ns[i]? with
      | some nd => some (cx.pfx ++ nd.1)
      | none => cx.lb
    else cx.lb
  let ub2 := if i + 1 < ns.length then
      match ns[i + 1]? with
      | some nd => some (cx.pfx ++ nd.1)
      | none => cx.ub
    else cx.ub
  let p := match lb2, ub2 with
    | some l, some u => common_pfx l u
    | _, _ => cx.pfx
  { lb := lb2, ub := ub2, pfx := p }

/-- In-order logical content of a subtree under a context: full keys
(context prefix ++ stored suffix) paired with logical data.  The fuel
bounds the recursion depth; hgt t suffices (see flattenCtx). -/
def flattenGo : Nat → BTree → Ctx → List (Bytes × Bytes)
  | 0, _, _ => []
  | _ + 1, .leaf ns, cx => ns.map (fun n => (cx.pfx ++ n.ksfx, n.dval))
  | fuel + 1, .branch ns, cx =>
      ((List.range ns.length).map (fun i =>
        match ns[i]? with
        | some nd => flattenGo fuel nd.2 (childCtx cx ns i)
        | none => [])).flatten

/-- In-order logical content of a subtree under a context. -/
def flattenCtx (t : BTree) (cx : Ctx) : List (Bytes × Bytes) :=
  flattenGo (hgt t) t cx

/-- Logical content of a whole tree. -/
def flattenT (t : BTree) : List (Bytes × Bytes) :=
  flattenCtx t rootCtx

/-- bt_cmp (btree.c lines 370-374): compare the query key beyond the
page prefix against a stored node key.  (When the prefix is longer than
the query key the C computes key1->size - pfx->len as size_t and reads
wild memory; descents only ever reach pages whose prefix is a prefix of
the query key, so the total drop here is equivalent on every reachable
call.) -/
def bt_cmp (key1 nodekey pfx : Bytes) : Int :=
  memncmp (key1.drop pfx.length) nodekey

/-- The while (low <= high) loop of btree_search_node (btree.c lines
1003-1019) over signed bounds, with i and rc live across iterations.
Fuel bounds the iteration count; numkeys + 2 always suffices since the
interval shrinks every pass. -/
def searchNodeGo (cmpAt : Nat → Int) :
    Nat → Int → Int → Nat → Int → Nat × Int
  | 0, _, _, i, rc => (i, rc)
  | fuel + 1, low, high, i, rc =>
      if low ≤ high then
        let i2 := ((low + high) / 2).toNat
        let rc2 := cmpAt i2
        if rc2 = 0 then (i2, rc2)
        else if 0 < rc2 then searchNodeGo cmpAt fuel (i2 + 1) high i2 rc2
        else searchNodeGo cmpAt fuel low (i2 - 1) i2 rc2
      else (i, rc)

/-- btree_search_node (btree.c lines 983-1037): binary-search a page for
key; returns the index of the smallest entry greater or equal to the
key and whether it is an exact match, or none when every entry is less.
Branch pages start low at 1 (slot 0 is the implicit lower bound). -/
def btree_search_node (isLeaf : Bool) (keys : List Bytes) (pfx key : Bytes) :
    Option (Nat × Bool) :=
  let n := keys.length
  let cmpAt := fun i => bt_cmp key (keys.getD i []) pfx
  let low : Int := if isLeaf then 0 else 1
  let r := searchNodeGo cmpAt (n + 2) low ((n : Int) - 1) 0 0
  if 0 < r.2 then
    if n ≤ r.1 + 1 then none else some (r.1 + 1, false)
  else some (r.1, r.2 = 0)

/-- A branch frame of the descent: the page's node list and the child
index taken.  Paths list the immediate parent first, the root last. -/
abbrev PFrame := List (Bytes × BTree) × Nat

/-- Context of the page sitting below the given frames (the root when
the path is empty). -/
def ctxOfPath : List PFrame → Ctx
  | [] => rootCtx
  | (ns, i) :: up => childCtx (ctxOfPath up) ns i

/-- The branch-descent loop of btree_search_page_root (btree.c lines
1125-1180): at each branch, binary-search for the child (largest
separator less or equal to the key; slot 0 when the key is none, as in
cursor-first), record the frame, compute the child's context, and stop
at a leaf.  Returns none if the structure is malformed (an index out of
range, where the C reads garbage). -/
def searchPageGo : Nat → BTree → Ctx → Option Bytes → List PFrame →
    Option (List LNode × List PFrame × Ctx)
  | 0, _, _, _, _ => none
  | _ + 1, .leaf ns, cx, _, path => some (ns, path, cx)
  | fuel + 1, .branch ns, cx, key, path =>
      let i := match key with
        | none => 0
        | some k =>
            match btree_search_node false (ns.map Prod.fst) cx.pfx k with
            | none => ns.length - 1
            | some (j, exact) => if exact then j else j - 1
      match ns[i]? with
      | none => none
      | some nd =>
          searchPageGo fuel nd.2 (childCtx cx ns i) key ((ns, i) :: path)

/-- Rebuild the tree root from a path of frames and the updated page at
the bottom (copy-on-write in the model: each parent is rebuilt with the
new child plugged into its slot). -/
def rebuild : List PFrame → BTree → BTree
  | [], p => p
  | (ns, i) :: up, p =>
      rebuild up (.branch (match ns[i]? with
        | some nd => ns.set i (nd.1, p)
        | none => ns))

/-- The tree-level view of struct btree: the meta counters mutations
maintain (btree.c lines 110-123 fields used by put and del). -/
structure DbT where
  psize : Nat
  entries : Nat
  depth : Nat
  leaf_pages : Nat
  branch_pages : Nat
  deriving DecidableEq

/-- The tree-level view of struct btree_txn: root holds the current tree
(none embeds root = P_INVALID). -/
structure TxnT where
  root : Option BTree
  rdonly : Bool
  errored : Bool

/-- btree_txn_get (btree.c lines 1293-1331): validate the key length,
descend to the leaf and require an exact match; btree_read_data then
yields the logical bytes.  (The bt/txn NULL dispatch of the C entry
point is outside the model: a transaction handle is always given; get
does not reject read-only transactions.) -/
def btree_txn_get (txn : TxnT) (key : Bytes) : BtRc × Option Bytes :=
  if key.length = 0 ∨ MAXKEYSIZE < key.length then
    (BtRc.fail Errno.EINVAL, none)
  else if txn.errored then (BtRc.fail Errno.EINVAL, none)
  else match txn.root with
  | none => (BtRc.fail Errno.ENOENT, none)
  | some t =>
      match searchPageGo (hgt t) t rootCtx (some key) [] with
      | none => (BtRc.fail Errno.EIO, none)
      | some (ns, _, cx) =>
          match btree_search_node true (ns.map LNode.ksfx) cx.pfx key with
          | some (i, true) =>
              match ns[i]? with
              | some nd => (BtRc.ok, some nd.dval)
              | none => (BtRc.fail Errno.EIO, none)
          | _ => (BtRc.fail Errno.ENOENT, none)

/-! ## Page arithmetic and node add/delete/update
(btree.c lines 91-98, 1632-1743, 1782-1843) -/

/-- Bytes one leaf node occupies in the page body (cf. the sz
computation of btree_del_node, lines 1716-1724): node header, key
suffix, then inline data or a 4-byte overflow reference. -/
def leafNodeSz (n : LNode) : Nat :=
  NODESIZE + n.ksfx.length + (if n.big then PGNOSZ else n.dval.length)

/-- Bytes one branch node occupies in the page body. -/
def branchNodeSz (k : Bytes) : Nat :=
  NODESIZE + k.length

/-- SIZELEFT of a leaf page: upper - lower, i.e. page size minus header,
ptrs slots and node bodies. -/
def sizeLeftLeaf (psize : Nat) (ns : List LNode) : Nat :=
  psize - PAGEHDRSZ - (ns.map (fun n => leafNodeSz n + INDXSZ)).sum

/-- SIZELEFT of a branch page. -/
def sizeLeftBranch (psize : Nat) (ns : List (Bytes × BTree)) : Nat :=
  psize - PAGEHDRSZ - (ns.map (fun n => branchNodeSz n.1 + INDXSZ)).sum

/-- PAGEFILL in per-mille (btree.c lines 96-98). -/
def PAGEFILL (psize sizeleft : Nat) : Nat :=
  1000 * (psize - PAGEHDRSZ - sizeleft) / (psize - PAGEHDRSZ)

def FILL_THRESHOLD : Nat := 250

/-- btree_add_node on a LEAF page (btree.c lines 1632-1708) at node
level: decide F_BIGDATA (a fresh payload of at least psize/BT_MINKEYS
bytes moves to an overflow chain; an incoming F_BIGDATA flag is kept as
is), check the room, insert at slot indx.  none embeds BT_FAIL for lack
of room. -/
def btree_add_node_L (psize : Nat) (ns : List LNode) (indx : Nat)
    (key data : Bytes) (flags : Bool) : Option (List LNode) :=
  let big := flags || decide (psize / BT_MINKEYS ≤ data.length)
  let node_size := NODESIZE + key.length +
    (if big then PGNOSZ else data.length)
  if sizeLeftLeaf psize ns < node_size + INDXSZ then none
  else some (ns.insertIdx indx ⟨key, data, big⟩)

/-- btree_add_node on a BRANCH page: room check, insert (key, child) at
slot indx. -/
def btree_add_node_B (psize : Nat) (ns : List (Bytes × BTree)) (indx : Nat)
    (key : Bytes) (child : BTree) : Option (List (Bytes × BTree)) :=
  if sizeLeftBranch psize ns < branchNodeSz key + INDXSZ then none
  else some (ns.insertIdx indx (key, child))

/-- btree_del_node (btree.c lines 1710-1743): at node level, deleting
slot indx; the byte compaction is invisible once offsets are abstract. -/
def btree_del_node_L (ns : List LNode) (indx : Nat) : List LNode :=
  ns.eraseIdx indx

def btree_del_node_B (ns : List (Bytes × BTree)) (indx : Nat) :
    List (Bytes × BTree) :=
  ns.eraseIdx indx

/-- btree_update_key on a branch page (btree.c lines 1782-1818): replace
the key of slot indx, failing when the page lacks room for a grown key. -/
def btree_update_key_B (psize : Nat) (ns : List (Bytes × BTree)) (indx : Nat)
    (key : Bytes) : Option (List (Bytes × BTree)) :=
  match ns[indx]? with
  | none => none
  | some nd =>
      if nd.1.length < key.length ∧
          sizeLeftBranch psize ns < key.length - nd.1.length then none
      else some (ns.set indx (key, nd.2))

/-- The per-key transformation of btree_adjust_prefix (btree.c lines
1820-1843) when the page prefix changes from oldPfx to a length of
newLen: a grown prefix strips the extra leading bytes from each stored
key; a shrunk prefix gives the freed tail of the old prefix back to each
key. -/
def adjustKey (oldPfx : Bytes) (newLen : Nat) (key : Bytes) : Bytes :=
  if oldPfx.length ≤ newLen then key.drop (newLen - oldPfx.length)
  else oldPfx.drop newLen ++ key

/-- The leftmost-descent of btree_search_page_root with a NULL key, used
by btree_move_node and btree_merge to recover the lowest full key below
a branch page (btree.c lines 1894-1899, 2036-2041): descend child 0 to
the leaf and expand its slot-0 key with the leaf's prefix. -/
def firstFullKey : Nat → BTree → Ctx → Option Bytes
  | 0, _, _ => none
  | _ + 1, .leaf ns, cx =>
      match ns[0]? with
      | some nd => some (cx.pfx ++ nd.ksfx)
      | none => none
  | fuel + 1, .branch ns, cx =>
      match ns[0]? with
      | some nd => firstFullKey fuel nd.2 (childCtx cx ns 0)
      | none => none

/-! ## Page split (btree.c lines 2256-2431)

btree_split works through parent pointers and in-place page mutation; the
functional embedding rebuilds the affected spine instead.  The pending
(key,data|child) is threaded exactly as in C through *mpp / *newindxp:
splitGo returns, besides the rebuilt root, the page and index where the
pending entry landed, and the frames above that page. -/

/-- The pending entry a split must place: leaf data or a branch child. -/
inductive PendItem
  | forLeaf (data : Bytes)
  | forBranch (child : BTree)

/-- Transient child value standing for a page whose content is built
after its parent's structure is known (page contents never affect
prefix computations, which read keys only); every placeholder is
replaced before a split returns. -/
def PLACEHOLDER : BTree := .leaf []

/-- Result of a split: the rebuilt root, the location of the pending
entry (page, index in it, frames above it, mirroring the C outputs
*mpp and *newindxp), and the page/depth counter increments. -/
structure SplitRes where
  root : BTree
  rpath : List PFrame
  rpage : BTree
  rindx : Nat
  dLeaf : Nat
  dBranch : Nat
  dDepth : Nat

/-- How the separator was placed in the ancestors: the contexts the two
halves will live under, and the assembly function that, given the two
finished halves, produces the rebuilt root together with the frames
above the left and the right half. -/
structure ParentRes where
  ctxL : Ctx
  ctxR : Ctx
  assemble : BTree → BTree → BTree × List PFrame × List PFrame
  dLeaf : Nat
  dBranch : Nat
  dDepth : Nat

/-- Left-half re-insertion of btree_split's redistribution loop (lines
2370-2427) for a leaf: each kept node's stored key loses the growth of
the page prefix (remove_prefix by pfx_diff); the pending entry enters
with its full key stripped of the whole side prefix and fresh flags.
Nodes are re-added in order with btree_add_node (room failure is
BT_FAIL). -/
def buildLeafSide (psize origPfxLen : Nat) (sidePfx : Bytes)
    (items : List (LNode ⊕ (Bytes × Bytes))) : Option (List LNode) :=
  items.foldl
    (fun acc it =>
      match acc with
      | none => none
      | some ns =>
          match it with
          | Sum.inl nd =>
              btree_add_node_L psize ns ns.length
                (nd.ksfx.drop (sidePfx.length - origPfxLen)) nd.dval nd.big
          | Sum.inr kd =>
              btree_add_node_L psize ns ns.length
                (kd.1.drop sidePfx.length) kd.2 false)
    (some [])

/-- Branch redistribution side: as for leaves, except that slot 0 of
either side is written with an empty key (the implicit branch key,
lines 2419-2421). -/
def buildBranchSide (psize origPfxLen : Nat) (sidePfx : Bytes)
    (items : List ((Bytes × BTree) ⊕ (Bytes × BTree))) :
    Option (List (Bytes × BTree)) :=
  items.foldl
    (fun acc it =>
      match acc with
      | none => none
      | some ns =>
          let rkey := match it with
            | Sum.inl nd =>
                if ns.length = 0 then []
                else nd.1.drop (sidePfx.length - origPfxLen)
            | Sum.inr kc =>
                if ns.length = 0 then [] else kc.1.drop sidePfx.length
          let child := match it with
            | Sum.inl nd => nd.2
            | Sum.inr kc => kc.2
          btree_add_node_B psize ns ns.length rkey child)
    (some [])

/-- Deltas of the counters btree_new_page bumps while splitting. -/
def prAddRight (pr : ParentRes) (isLeaf : Bool) : ParentRes :=
  if isLeaf then { pr with dLeaf := pr.dLeaf + 1 }
  else { pr with dBranch := pr.dBranch + 1 }

mutual

/-- Place the separator fullSep (a full key) for a new right sibling
into the parent level: in place when the parent has room (lines
2353-2356), else by recursively splitting the parent (lines 2341-2352,
including the re-derivation of the left half's position from where the
separator landed: the left half is the landing page's left neighbour
slot, possibly the last slot of the preceding page when the separator
became an implicit slot 0). -/
def splitParent : Nat → Nat → List PFrame → Bytes → Option ParentRes
  | 0, _, _, _ => none
  | _ + 1, _, [], _ => none
  | fuel + 1, psize, (pns, pidx) :: up, fullSep =>
      if bt_branch_size fullSep ≤ sizeLeftBranch psize pns then
        let parentCtx := ctxOfPath up
        match btree_add_node_B psize pns (pidx + 1)
            (fullSep.drop parentCtx.pfx.length) PLACEHOLDER with
        | none => none
        | some pns1 =>
            some
              { ctxL := childCtx parentCtx pns1 pidx
                ctxR := childCtx parentCtx pns1 (pidx + 1)
                assemble := fun L R =>
                  let pns2 := ((pns1.set pidx
                      ((pns1.getD pidx ([], PLACEHOLDER)).1, L)).set (pidx + 1)
                      ((pns1.getD (pidx + 1) ([], PLACEHOLDER)).1, R))
                  (rebuild up (.branch pns2),
                    (pns2, pidx) :: up, (pns2, pidx + 1) :: up)
                dLeaf := 0, dBranch := 0, dDepth := 0 }
      else
        match splitGo fuel psize up (.branch pns) (pidx + 1) fullSep
            (.forBranch PLACEHOLDER) with
        | none => none
        | some r =>
            match r.rpage with
            | .leaf _ => none
            | .branch rns =>
                if 0 < r.rindx then
                  let parentCtx := ctxOfPath r.rpath
                  some
                    { ctxL := childCtx parentCtx rns (r.rindx - 1)
                      ctxR := childCtx parentCtx rns r.rindx
                      assemble := fun L R =>
                        let rns2 := ((rns.set (r.rindx - 1)
                            ((rns.getD (r.rindx - 1) ([], PLACEHOLDER)).1,
                              L)).set r.rindx
                            ((rns.getD r.rindx ([], PLACEHOLDER)).1, R))
                        (rebuild r.rpath (.branch rns2),
                          (rns2, r.rindx - 1) :: r.rpath,
                          (rns2, r.rindx) :: r.rpath)
                      dLeaf := r.dLeaf, dBranch := r.dBranch,
                      dDepth := r.dDepth }
                else
                  match r.rpath with
                  | [] => none
                  | (gns, gj) :: gup =>
                      if gj = 0 then none
                      else
                        match (gns.getD (gj - 1) ([], PLACEHOLDER)).2 with
                        | .leaf _ => none
                        | .branch lpns =>
                            let gctx := ctxOfPath gup
                            let ctxLP := childCtx gctx gns (gj - 1)
                            let posL := lpns.length - 1
                            some
                              { ctxL := childCtx ctxLP lpns posL
                                ctxR := childCtx (childCtx gctx gns gj) rns 0
                                assemble := fun L R =>
                                  let lpns2 := lpns.set posL
                                    ((lpns.getD posL ([], PLACEHOLDER)).1, L)
                                  let rns2 := rns.set 0
                                    ((rns.getD 0 ([], PLACEHOLDER)).1, R)
                                  let gns2 := ((gns.set (gj - 1)
                                      ((gns.getD (gj - 1)
                                        ([], PLACEHOLDER)).1,
                                        .branch lpns2)).set gj
                                      ((gns.getD gj ([], PLACEHOLDER)).1,
                                        .branch rns2))
                                  (rebuild gup (.branch gns2),
                                    (lpns2, posL) :: (gns2, gj - 1) :: gup,
                                    (rns2, 0) :: (gns2, gj) :: gup)
                                dLeaf := r.dLeaf, dBranch := r.dBranch,
                                dDepth := r.dDepth }

/-- btree_split (btree.c lines 2261-2431): split the page, which has the
given ancestors (immediate parent first; an empty path makes a new
BRANCH root whose implicit slot 0 points at the page, lines 2281-2294),
inserting the pending entry (full key newkey with leaf data or branch
child) at index newindx of the unsplit page.  Chooses
split_indx = numkeys/2 + 1, derives the separator (Bayer-Unterauer
reduction on leaves), places it in the parent level, recomputes both
sides' prefixes from the new ancestry, and redistributes. -/
def splitGo : Nat → Nat → List PFrame → BTree → Nat → Bytes → PendItem →
    Option SplitRes
  | 0, _, _, _, _, _, _ => none
  | fuel + 1, psize, path, page, newindx, newkey, pend =>
      let cx := ctxOfPath path
      let origPfx := cx.pfx
      let path1 := if path.isEmpty then [([(([] : Bytes), page)], 0)]
        else path
      let dRoot : Nat := if path.isEmpty then 1 else 0
      match page with
      | .leaf ns =>
          let n := ns.length
          let split_indx := n / 2 + 1
          let sep0 : Bytes :=
            if newindx = split_indx then newkey.drop origPfx.length
            else (ns.getD split_indx ⟨[], [], false⟩).ksfx
          let sep1 := bt_reduce_separator
            (ns.getD (split_indx - 1) ⟨[], [], false⟩).ksfx sep0
          let fullSep := origPfx ++ sep1
          let data := match pend with
            | .forLeaf d => d
            | .forBranch _ => []
          match splitParent fuel psize path1 fullSep with
          | none => none
          | some pr0 =>
              let pr := prAddRight pr0 true
              let X := split_indx + (if newindx < split_indx then 1 else 0)
              let combined : List (LNode ⊕ (Bytes × Bytes)) :=
                (ns.map Sum.inl).insertIdx newindx (Sum.inr (newkey, data))
              match buildLeafSide psize origPfx.length pr.ctxL.pfx
                  (combined.take X),
                buildLeafSide psize origPfx.length pr.ctxR.pfx
                  (combined.drop X) with
              | some lns, some rns =>
                  let a := pr.assemble (.leaf lns) (.leaf rns)
                  if newindx < X then
                    some ⟨a.1, a.2.1, .leaf lns, newindx,
                      pr.dLeaf, pr.dBranch + dRoot, pr.dDepth + dRoot⟩
                  else
                    some ⟨a.1, a.2.2, .leaf rns, newindx - X,
                      pr.dLeaf, pr.dBranch + dRoot, pr.dDepth + dRoot⟩
              | _, _ => none
      | .branch ns =>
          let n := ns.length
          let split_indx := n / 2 + 1
          let sep0 : Bytes :=
            if newindx = split_indx then newkey.drop origPfx.length
            else (ns.getD split_indx ([], PLACEHOLDER)).1
          let fullSep := origPfx ++ sep0
          let child := match pend with
            | .forBranch c => c
            | .forLeaf _ => PLACEHOLDER
          match splitParent fuel psize path1 fullSep with
          | none => none
          | some pr0 =>
              let pr := prAddRight pr0 false
              let X := split_indx + (if newindx < split_indx then 1 else 0)
              let combined : List ((Bytes × BTree) ⊕ (Bytes × BTree)) :=
                (ns.map Sum.inl).insertIdx newindx (Sum.inr (newkey, child))
              match buildBranchSide psize origPfx.length pr.ctxL.pfx
                  (combined.take X),
                buildBranchSide psize origPfx.length pr.ctxR.pfx
                  (combined.drop X) with
              | some lns, some rns =>
                  let a := pr.assemble (.branch lns) (.branch rns)
                  if newindx < X then
                    some ⟨a.1, a.2.1, .branch lns, newindx,
                      pr.dLeaf, pr.dBranch + dRoot, pr.dDepth + dRoot⟩
                  else
                    some ⟨a.1, a.2.2, .branch rns, newindx - X,
                      pr.dLeaf, pr.dBranch + dRoot, pr.dDepth + dRoot⟩
              | _, _ => none

end

/-! ## Insertion (btree.c lines 2433-2522) -/

/-- btree_txn_put: guards (a read-only transaction and a bad key length
both surface EINVAL), modify-descent to the target leaf (an errored
transaction fails inside btree_search_page with EINVAL; an empty tree
allocates a fresh root leaf, bumping leaf_pages and depth), delete an
exact match first, then insert in place when the leaf has room for
bt_leaf_size(key, data) or split otherwise; entries increments on every
success.  The auto-transaction wrapper for a NULL txn is outside the
model.  On add/split failure the C leaves errno to the failing callee;
here EIO stands for that unspecified errno while the transaction is
flagged BT_TXN_ERROR. -/
def btree_txn_put (db : DbT) (txn : TxnT) (key data : Bytes) :
    BtRc × DbT × TxnT :=
  if txn.rdonly then (BtRc.fail Errno.EINVAL, db, txn)
  else if key.length = 0 ∨ MAXKEYSIZE < key.length then
    (BtRc.fail Errno.EINVAL, db, txn)
  else if txn.errored then (BtRc.fail Errno.EINVAL, db, txn)
  else
    let sr : Option (List LNode × List PFrame × Ctx × Nat × Bool × DbT) :=
      match txn.root with
      | none =>
          some ([], [], rootCtx, 0, false,
            { db with
              leaf_pages := db.leaf_pages + 1,
              depth := db.depth + 1 })
      | some t =>
          match searchPageGo (hgt t) t rootCtx (some key) [] with
          | none => none
          | some (ns, path, cx) =>
              match btree_search_node true (ns.map LNode.ksfx) cx.pfx key with
              | some (ki, exact) => some (ns, path, cx, ki, exact, db)
              | none => some (ns, path, cx, ns.length, false, db)
    match sr with
    | none => (BtRc.fail Errno.EIO, db, txn)
    | some (ns0, path, cx, ki, exact, db1) =>
        let ns1 := if exact then btree_del_node_L ns0 ki else ns0
        if sizeLeftLeaf db.psize ns1 < bt_leaf_size db.psize key data then
          match splitGo (path.length + 2) db.psize path (.leaf ns1) ki key
              (.forLeaf data) with
          | none => (BtRc.fail Errno.EIO, db1, { txn with errored := true })
          | some r =>
              (BtRc.ok,
                { db1 with
                  entries := db1.entries + 1,
                  leaf_pages := db1.leaf_pages + r.dLeaf,
                  branch_pages := db1.branch_pages + r.dBranch,
                  depth := db1.depth + r.dDepth },
                { txn with root := some r.root })
        else
          match btree_add_node_L db.psize ns1 ki (key.drop cx.pfx.length)
              data false with
          | none => (BtRc.fail Errno.EIO, db1, { txn with errored := true })
          | some ns2 =>
              (BtRc.ok, { db1 with entries := db1.entries + 1 },
                { txn with root := some (rebuild path (.leaf ns2)) })

/-! ## Rebalancing: move, merge, rebalance, delete
(btree.c lines 1845-2226) -/

/-- Number of keys on a page. -/
def numkeysT : BTree → Nat
  | .leaf ns => ns.length
  | .branch ns => ns.length

/-- SIZELEFT of a page. -/
def sizeLeftT (psize : Nat) : BTree → Nat
  | .leaf ns => sizeLeftLeaf psize ns
  | .branch ns => sizeLeftBranch psize ns

/-- Check that a rebuilt leaf page still fits; stands for the sequential
btree_update_key room checks of btree_adjust_prefix. -/
def leafFits (psize : Nat) (ns : List LNode) : Option (List LNode) :=
  if psize - PAGEHDRSZ < (ns.map (fun n => leafNodeSz n + INDXSZ)).sum
  then none else some ns

def branchFits (psize : Nat) (ns : List (Bytes × BTree)) :
    Option (List (Bytes × BTree)) :=
  if psize - PAGEHDRSZ < (ns.map (fun n => branchNodeSz n.1 + INDXSZ)).sum
  then none else some ns

/-- Rewrite every stored key of a page for a prefix change from oldPfx
to a prefix of length newLen (btree_adjust_prefix, lines 1820-1843),
with the room check. -/
def adjustLeafPage (psize : Nat) (oldPfx : Bytes) (newLen : Nat)
    (ns : List LNode) : Option (List LNode) :=
  leafFits psize (ns.map (fun nd => { nd with
    ksfx := adjustKey oldPfx newLen nd.ksfx }))

def adjustBranchPage (psize : Nat) (oldPfx : Bytes) (newLen : Nat)
    (ns : List (Bytes × BTree)) : Option (List (Bytes × BTree)) :=
  branchFits psize (ns.map (fun nd =>
    (adjustKey oldPfx newLen nd.1, nd.2)))

/-- Adjust the stored keys of a page (the top page of a moved child,
step 15 of btree_move_node). -/
def adjustPageKeys (psize : Nat) (oldPfx : Bytes) (newLen : Nat) :
    BTree → Option BTree
  | .leaf ns =>
      match adjustLeafPage psize oldPfx newLen ns with
      | some ns2 => some (.leaf ns2)
      | none => none
  | .branch ns =>
      match adjustBranchPage psize oldPfx newLen ns with
      | some ns2 => some (.branch ns2)
      | none => none

/-- btree_move_node (btree.c lines 1846-2000): move node si of the page
at parent slot spos to index di of the sibling page at parent slot dpos.
Both pages sit under the parent page pns whose own ancestors are up.
Returns the updated parent node list (children and separators rewritten);
none embeds BT_FAIL.  Two places where the C consults a prefix field it
has just overwritten (the shrink branch of btree_adjust_prefix invoked
from lines 1971 and 1979, and the moved-child adjustment of line 1992)
are modelled with the prefix value the field held when the delta was
taken. -/
def btree_move_node (psize : Nat) (up : List PFrame)
    (pns : List (Bytes × BTree)) (spos dpos si di : Nat) :
    Option (List (Bytes × BTree)) :=
  let parentCtx := ctxOfPath up
  let srcCtx := childCtx parentCtx pns spos
  let dstCtx := childCtx parentCtx pns dpos
  match (pns.getD spos ([], PLACEHOLDER)).2,
      (pns.getD dpos ([], PLACEHOLDER)).2 with
  | .leaf srcNs, .leaf dstNs =>
      match srcNs[si]? with
      | none => none
      | some srcnode =>
          let tmp := common_pfx srcnode.ksfx dstCtx.pfx
          match (if tmp.length ≠ dstCtx.pfx.length then
              adjustLeafPage psize dstCtx.pfx tmp.length dstNs
            else some dstNs) with
          | none => none
          | some dstNs1 =>
              let dstPfx1 := if tmp.length ≠ dstCtx.pfx.length then tmp
                else dstCtx.pfx
              let full := srcCtx.pfx ++ srcnode.ksfx
              match btree_add_node_L psize dstNs1 di
                  (full.drop dstPfx1.length) srcnode.dval srcnode.big with
              | none => none
              | some dstNs2 =>
                  let srcNs1 := btree_del_node_L srcNs si
                  -- parent separator updates (lines 1929-1957)
                  let pns1 :=
                    if si = 0 ∧ spos ≠ 0 then
                      match srcNs1[0]? with
                      | none => none
                      | some first =>
                          btree_update_key_B psize pns spos
                            ((srcCtx.pfx ++ first.ksfx).drop
                              parentCtx.pfx.length)
                    else some pns
                  match pns1 with
                  | none => none
                  | some pns1 =>
                      let pns2 :=
                        if di = 0 ∧ dpos ≠ 0 then
                          match dstNs2[0]? with
                          | none => none
                          | some first =>
                              btree_update_key_B psize pns1 dpos
                                ((dstPfx1 ++ first.ksfx).drop
                                  parentCtx.pfx.length)
                        else some pns1
                      match pns2 with
                      | none => none
                      | some pns2 =>
                          -- prefix re-derivation (lines 1965-1982)
                          let srcCtx2 := childCtx parentCtx pns2 spos
                          let dstCtx2 := childCtx parentCtx pns2 dpos
                          match (if srcCtx2.pfx.length ≠ srcCtx.pfx.length
                              then adjustLeafPage psize srcCtx.pfx
                                srcCtx2.pfx.length srcNs1
                              else some srcNs1),
                            (if dstCtx2.pfx.length ≠ dstPfx1.length then
                                adjustLeafPage psize dstPfx1
                                  dstCtx2.pfx.length dstNs2
                              else some dstNs2) with
                          | some srcNs2, some dstNs3 =>
                              some ((pns2.set spos
                                  ((pns2.getD spos ([], PLACEHOLDER)).1,
                                    .leaf srcNs2)).set dpos
                                  ((pns2.getD dpos ([], PLACEHOLDER)).1,
                                    .leaf dstNs3))
                          | _, _ => none
  | .branch srcNs, .branch dstNs =>
      match srcNs[si]? with
      | none => none
      | some srcnode =>
          -- preload the moved child's prefix length (lines 1859-1870)
          let mpCtx := childCtx srcCtx srcNs si
          let mp_pfxlen := mpCtx.pfx.length
          let tmp := common_pfx srcnode.1 dstCtx.pfx
          match (if tmp.length ≠ dstCtx.pfx.length then
              adjustBranchPage psize dstCtx.pfx tmp.length dstNs
            else some dstNs) with
          | none => none
          | some dstNs1 =>
              let dstPfx1 := if tmp.length ≠ dstCtx.pfx.length then tmp
                else dstCtx.pfx
              -- lines 1894-1909: moving slot 0 of a branch recovers the
              -- real lowest key below src; the C then concatenates
              -- src->prefix in front of that already-full key, which is
              -- mirrored verbatim here
              let srckey :=
                if si = 0 then
                  match firstFullKey (hgt (.branch srcNs)) (.branch srcNs)
                      srcCtx with
                  | some k => some k
                  | none => none
                else some srcnode.1
              match srckey with
              | none => none
              | some srckey =>
                  let full := srcCtx.pfx ++ srckey
                  match btree_add_node_B psize dstNs1 di
                      (full.drop dstPfx1.length) srcnode.2 with
                  | none => none
                  | some dstNs2 =>
                      let srcNs1 := btree_del_node_B srcNs si
                      let pns1 :=
                        if si = 0 ∧ spos ≠ 0 then
                          match srcNs1[0]? with
                          | none => none
                          | some first =>
                              btree_update_key_B psize pns spos
                                ((srcCtx.pfx ++ first.1).drop
                                  parentCtx.pfx.length)
                        else some pns
                      match pns1 with
                      | none => none
                      | some pns1 =>
                          -- line 1941-1945: implicit key for src slot 0
                          let srcNs1 :=
                            if si = 0 then
                              match srcNs1[0]? with
                              | some first => srcNs1.set 0 ([], first.2)
                              | none => srcNs1
                            else srcNs1
                          let pns2 :=
                            if di = 0 ∧ dpos ≠ 0 then
                              match dstNs2[0]? with
                              | none => none
                              | some first =>
                                  btree_update_key_B psize pns1 dpos
                                    ((dstPfx1 ++ first.1).drop
                                      parentCtx.pfx.length)
                            else some pns1
                          match pns2 with
                          | none => none
                          | some pns2 =>
                              -- line 1959-1963: implicit key for dst 0
                              let dstNs2 :=
                                if di = 0 then
                                  match dstNs2[0]? with
                                  | some first => dstNs2.set 0 ([], first.2)
                                  | none => dstNs2
                                else dstNs2
                              let srcCtx2 := childCtx parentCtx pns2 spos
                              let dstCtx2 := childCtx parentCtx pns2 dpos
                              match (if srcCtx2.pfx.length ≠
                                    srcCtx.pfx.length then
                                  adjustBranchPage psize srcCtx.pfx
                                    srcCtx2.pfx.length srcNs1
                                else some srcNs1),
                                (if dstCtx2.pfx.length ≠ dstPfx1.length
                                  then adjustBranchPage psize dstPfx1
                                    dstCtx2.pfx.length dstNs2
                                  else some dstNs2) with
                              | some srcNs2, some dstNs3 =>
                                  -- lines 1984-1997: the moved child may
                                  -- change prefix under its new parent
                                  let mpCtx2 := childCtx dstCtx2
                                    dstNs3 di
                                  match (if mpCtx2.pfx.length ≠ mp_pfxlen
                                      then adjustPageKeys psize mpCtx.pfx
                                        mpCtx2.pfx.length srcnode.2
                                      else some srcnode.2) with
                                  | none => none
                                  | some mp2 =>
                                      let dstNs4 :=
                                        match dstNs3[di]? with
                                        | some nd =>
                                            dstNs3.set di (nd.1, mp2)
                                        | none => dstNs3
                                      some ((pns2.set spos
                                          ((pns2.getD spos
                                            ([], PLACEHOLDER)).1,
                                            .branch srcNs2)).set dpos
                                          ((pns2.getD dpos
                                            ([], PLACEHOLDER)).1,
                                            .branch dstNs4))
                              | _, _ => none
  | _, _ => none

/-- Result of btree_rebalance: the new root (none when the tree emptied)
and how much the depth / leaf_pages / branch_pages counters decrease. -/
structure RebRes where
  root : Option BTree
  dDepth : Nat
  dLeaf : Nat
  dBranch : Nat

/-- Append every node of a source page to a destination page, with the
source keys expanded to full keys and the destination prefix removed
(the node-moving loop of btree_merge, btree.c lines 2031-2057).  Branch
slot 0 uses the real lowest key found below the source page. -/
def mergeAppend (psize : Nat) (srcCx : Ctx) (dstPfx : Bytes) :
    BTree → BTree → Option BTree
  | .leaf srcNs, .leaf dstNs =>
      match srcNs.foldl
          (fun acc nd =>
            match acc with
            | none => none
            | some ns =>
                btree_add_node_L psize ns ns.length
                  ((srcCx.pfx ++ nd.ksfx).drop dstPfx.length) nd.dval nd.big)
          (some dstNs) with
      | some ns2 => some (.leaf ns2)
      | none => none
  | .branch srcNs, .branch dstNs =>
      match (List.range srcNs.length).foldl
          (fun acc i =>
            match acc with
            | none => none
            | some ns =>
                match srcNs[i]? with
                | none => none
                | some nd =>
                    let key :=
                      if i = 0 then
                        firstFullKey (hgt (.branch srcNs)) (.branch srcNs)
                          srcCx
                      else some (srcCx.pfx ++ nd.1)
                    match key with
                    | none => none
                    | some k =>
                        btree_add_node_B psize ns ns.length
                          (k.drop dstPfx.length) nd.2)
          (some dstNs) with
      | some ns2 => some (.branch ns2)
      | none => none
  | _, _ => none

mutual

/-- btree_merge (btree.c lines 2002-2078): merge the page at parent slot
spos into the page at parent slot dpos (always the right page into the
left), widen the destination prefix to the common prefix with the source
if needed, append the source nodes, unlink the source from the parent
(rewriting the parent's new slot 0 key to the implicit empty key when
the source was slot 0), decrement the page counter, and rebalance the
parent. -/
def btree_merge (fuel psize : Nat) (up : List PFrame)
    (pns : List (Bytes × BTree)) (spos dpos : Nat) : Option RebRes :=
  let parentCtx := ctxOfPath up
  let srcCtx := childCtx parentCtx pns spos
  let dstCtx := childCtx parentCtx pns dpos
  let src := (pns.getD spos ([], PLACEHOLDER)).2
  let dst := (pns.getD dpos ([], PLACEHOLDER)).2
  let dstpfx := common_pfx srcCtx.pfx dstCtx.pfx
  let dstAdj : Option BTree :=
    if dstpfx.length ≠ dstCtx.pfx.length then
      adjustPageKeys psize dstCtx.pfx dstpfx.length dst
    else some dst
  match dstAdj with
  | none => none
  | some dst1 =>
      let dstPfx1 := if dstpfx.length ≠ dstCtx.pfx.length then dstpfx
        else dstCtx.pfx
      match mergeAppend psize srcCtx dstPfx1 src dst1 with
      | none => none
      | some dst2 =>
          let pns1 := btree_del_node_B
            (pns.set dpos ((pns.getD dpos ([], PLACEHOLDER)).1, dst2)) spos
          let pns2 : Option (List (Bytes × BTree)) :=
            if spos = 0 then
              match pns1[0]? with
              | some nd => some (pns1.set 0 ([], nd.2))
              | none => none
            else some pns1
          match pns2 with
          | none => none
          | some pns2 =>
              let isLeafSrc := match src with
                | .leaf _ => true
                | .branch _ => false
              match btree_rebalance fuel psize up (.branch pns2) with
              | none => none
              | some r =>
                  some { r with
                    dLeaf := r.dLeaf + (if isLeafSrc then 1 else 0),
                    dBranch := r.dBranch + (if isLeafSrc then 0 else 1) }

/-- btree_rebalance (btree.c lines 2082-2156): nothing to do at or above
FILL_THRESHOLD; at the root, an empty page clears the tree and a branch
with a single child is promoted; otherwise borrow one node from the
left (or, for the leftmost child, the right) sibling when that sibling
is healthy and has at least two keys, else merge the right page of the
pair into the left and continue up. -/
def btree_rebalance (fuel psize : Nat) (path : List PFrame) (page : BTree) :
    Option RebRes :=
  match fuel with
  | 0 => none
  | fuel + 1 =>
      if FILL_THRESHOLD ≤ PAGEFILL psize (sizeLeftT psize page) then
        some ⟨some (rebuild path page), 0, 0, 0⟩
      else
        match path with
        | [] =>
            match page with
            | .leaf ns =>
                if ns.length = 0 then some ⟨none, 1, 1, 0⟩
                else some ⟨some page, 0, 0, 0⟩
            | .branch ns =>
                if ns.length = 0 then some ⟨none, 1, 1, 0⟩
                else if ns.length = 1 then
                  match ns[0]? with
                  | some nd => some ⟨some nd.2, 1, 0, 1⟩
                  | none => none
                else some ⟨some page, 0, 0, 0⟩
        | (pns, pi) :: up =>
            let pns0 := pns.set pi ((pns.getD pi ([], PLACEHOLDER)).1, page)
            if pi = 0 then
              let neighbor := (pns0.getD 1 ([], PLACEHOLDER)).2
              if FILL_THRESHOLD ≤
                    PAGEFILL psize (sizeLeftT psize neighbor) ∧
                  2 ≤ numkeysT neighbor then
                match btree_move_node psize up pns0 1 0 0
                    (numkeysT page) with
                | some pns2 => some ⟨some (rebuild up (.branch pns2)), 0, 0, 0⟩
                | none => none
              else btree_merge fuel psize up pns0 1 0
            else
              let neighbor := (pns0.getD (pi - 1) ([], PLACEHOLDER)).2
              if FILL_THRESHOLD ≤
                    PAGEFILL psize (sizeLeftT psize neighbor) ∧
                  2 ≤ numkeysT neighbor then
                match btree_move_node psize up pns0 (pi - 1) pi
                    (numkeysT neighbor - 1) 0 with
                | some pns2 => some ⟨some (rebuild up (.branch pns2)), 0, 0, 0⟩
                | none => none
              else btree_merge fuel psize up pns0 pi (pi - 1)

end

/-- btree_txn_del (btree.c lines 2158-2226): guards as put, exact-match
search, optional read-out of the previous value, node deletion, entries
decrement and rebalance; a rebalance failure flags BT_TXN_ERROR.  The
auto-transaction wrapper for a NULL txn is outside the model. -/
def btree_txn_del (db : DbT) (txn : TxnT) (key : Bytes) :
    BtRc × DbT × TxnT × Option Bytes :=
  if txn.rdonly then (BtRc.fail Errno.EINVAL, db, txn, none)
  else if key.length = 0 ∨ MAXKEYSIZE < key.length then
    (BtRc.fail Errno.EINVAL, db, txn, none)
  else if txn.errored then (BtRc.fail Errno.EINVAL, db, txn, none)
  else match txn.root with
  | none => (BtRc.fail Errno.ENOENT, db, txn, none)
  | some t =>
      match searchPageGo (hgt t) t rootCtx (some key) [] with
      | none => (BtRc.fail Errno.EIO, db, txn, none)
      | some (ns, path, cx) =>
          match btree_search_node true (ns.map LNode.ksfx) cx.pfx key with
          | some (ki, true) =>
              let out := (ns.getD ki ⟨[], [], false⟩).dval
              let ns1 := btree_del_node_L ns ki
              let db1 := { db with entries := db.entries - 1 }
              match btree_rebalance (path.length + 1) db.psize path
                  (.leaf ns1) with
              | none =>
                  (BtRc.fail Errno.EIO, db1,
                    { txn with errored := true }, some out)
              | some r =>
                  (BtRc.ok,
                    { db1 with
                      depth := db1.depth - r.dDepth,
                      leaf_pages := db1.leaf_pages - r.dLeaf,
                      branch_pages := db1.branch_pages - r.dBranch },
                    { txn with root := r.root }, some out)
          | _ => (BtRc.fail Errno.ENOENT, db, txn, none)

/-! ## C8: write operations on a read-only transaction -/

/-- A concrete empty database and a read-only transaction on it. -/
def dbT8 : DbT :=
  { psize := 4096, entries := 0, depth := 0,
    leaf_pages := 0, branch_pages := 0 }

def txnT8 : TxnT := { root := none, rdonly := true, errored := false }

/-! ## Cursors (btree.c lines 160-178, 1039-1059, 1333-1548) -/

/-- A cursor stack frame (struct ppage): the page and the index ki on
it.  The stack lists the current leaf first and the root last. -/
abbrev CFrame := BTree × Nat

abbrev CStack := List CFrame

/-- struct cursor: the page stack, the initialized flag (inited) and the
end-of-tree flag.  The transaction and btree handles are passed to the
operations instead of being stored. -/
structure Cursor where
  stack : CStack
  inited : Bool
  eof : Bool

/-- Context (and hence prefix, as find_common_prefix derives it) of the
page at the top of the stack. -/
def ctxOfStack : CStack → Ctx
  | [] => rootCtx
  | [_] => rootCtx
  | _ :: (p, ki) :: up =>
      match p with
      | .branch ns => childCtx (ctxOfStack ((p, ki) :: up)) ns ki
      | .leaf _ => rootCtx

/-- Cursor descent: btree_search_page_root with a cursor (btree.c lines
1125-1180) pushes every visited page; branch frames record the chosen
child index, the leaf frame starts at ki = 0 (cursor_push_page zeroes
it). -/
def cursorSearchGo : Nat → BTree → Ctx → Option Bytes → CStack →
    Option CStack
  | 0, _, _, _, _ => none
  | _ + 1, .leaf ns, _, _, st => some ((.leaf ns, 0) :: st)
  | fuel + 1, .branch ns, cx, key, st =>
      let i := match key with
        | none => 0
        | some k =>
            match btree_search_node false (ns.map Prod.fst) cx.pfx k with
            | none => ns.length - 1
            | some (j, exact) => if exact then j else j - 1
      match ns[i]? with
      | none => none
      | some nd =>
          cursorSearchGo fuel nd.2 (childCtx cx ns i) key
            ((.branch ns, i) :: st)

/-- btree_sibling (btree.c lines 1333-1371): pop the current page; when
the parent is at its boundary recurse upward, else step the parent's ki;
then load and push the pointed child (the recursion pushes fresh pages
with ki = 0, descending into the new subtree on unwind).  none embeds
BT_FAIL with errno ENOENT at the root. -/
def btree_sibling : CStack → Bool → Option CStack
  | [], _ => none
  | [_], _ => none
  | _ :: (p, ki) :: up, moveRight =>
      match p with
      | .leaf _ => none
      | .branch ns =>
          if (if moveRight then ns.length ≤ ki + 1 else ki = 0) then
            match btree_sibling ((p, ki) :: up) moveRight with
            | none => none
            | some st2 =>
                match st2 with
                | (BTree.branch qns, qki) :: _ =>
                    match qns[qki]? with
                    | some nd => some ((nd.2, 0) :: st2)
                    | none => none
                | _ => none
          else
            let ki2 := if moveRight then ki + 1 else ki - 1
            match ns[ki2]? with
            | some nd => some ((nd.2, 0) :: (.branch ns, ki2) :: up)
            | none => none

/-- The record the cursor points at: btree_read_data for the data and
bt_set_key for the key, which is materialised as page prefix ++ stored
suffix (btree.c lines 1373-1397). -/
def cursorRead (st : CStack) : Option (Bytes × Bytes) :=
  match st with
  | (BTree.leaf ns, ki) :: _ =>
      match ns[ki]? with
      | some nd => some ((ctxOfStack st).pfx ++ nd.ksfx, nd.dval)
      | none => none
  | _ => none

/-- btree_cursor_next (btree.c lines 1399-1435): fail at once when eof
is set; otherwise advance within the leaf, or move to the next leaf via
btree_sibling, setting eof when no sibling remains.  (On that failure
the C leaves the stack popped down to the root frame; the model keeps
the old stack: with eof set, every later BT_NEXT short-circuits and
every other operation rebuilds the stack, so the difference is
unobservable.) -/
def btree_cursor_next (c : Cursor) : BtRc × Cursor × Option (Bytes × Bytes) :=
  if c.eof then (BtRc.fail Errno.ENOENT, c, none)
  else match c.stack with
  | [] => (BtRc.fail Errno.ENOENT, c, none)
  | (mp, ki) :: up =>
      let step : Option CStack :=
        if numkeysT mp ≤ ki + 1 then btree_sibling ((mp, ki) :: up) true
        else some ((mp, ki + 1) :: up)
      match step with
      | none => (BtRc.fail Errno.ENOENT, { c with eof := true }, none)
      | some st2 =>
          match cursorRead st2 with
          | some kv => (BtRc.ok, { c with stack := st2 }, some kv)
          | none => (BtRc.fail Errno.EIO, { c with stack := st2 }, none)

/-- btree_cursor_set (btree.c lines 1437-1479): position the cursor at
the given key.  The descent builds the stack; the leaf search stores the
index; with BT_CURSOR_EXACT a non-exact result is ENOENT; when the leaf
has no entry greater or equal to the key the cursor advances to the
right sibling.  On success the cursor becomes initialized with eof
cleared. -/
def btree_cursor_set (root : Option BTree) (c : Cursor) (key : Bytes)
    (wantExact : Bool) : BtRc × Cursor × Option (Bytes × Bytes) :=
  match root with
  | none => (BtRc.fail Errno.ENOENT, c, none)
  | some t =>
      match cursorSearchGo (hgt t) t rootCtx (some key) [] with
      | none => (BtRc.fail Errno.EIO, c, none)
      | some st =>
          match st with
          | (BTree.leaf ns, _) :: up =>
              let cx := ctxOfStack st
              let sres := btree_search_node true (ns.map LNode.ksfx)
                cx.pfx key
              let exact := match sres with
                | some (_, e) => e
                | none => false
              if wantExact && !exact then
                (BtRc.fail Errno.ENOENT, { c with stack := st }, none)
              else
                let st1 : Option CStack := match sres with
                  | some (ki, _) => some ((.leaf ns, ki) :: up)
                  | none => btree_sibling ((.leaf ns, 0) :: up) true
                match st1 with
                | none =>
                    (BtRc.fail Errno.ENOENT, { c with stack := st }, none)
                | some st2 =>
                    let c2 : Cursor :=
                      { stack := st2, inited := true, eof := false }
                    match cursorRead st2 with
                    | some kv => (BtRc.ok, c2, some kv)
                    | none => (BtRc.fail Errno.EIO, c2, none)
          | _ => (BtRc.fail Errno.EIO, c, none)

/-- btree_cursor_first (btree.c lines 1481-1505): leftmost descent, the
cursor becomes initialized with eof cleared, slot 0 of the first leaf is
returned. -/
def btree_cursor_first (root : Option BTree) (c : Cursor) :
    BtRc × Cursor × Option (Bytes × Bytes) :=
  match root with
  | none => (BtRc.fail Errno.ENOENT, c, none)
  | some t =>
      match cursorSearchGo (hgt t) t rootCtx none [] with
      | none => (BtRc.fail Errno.EIO, c, none)
      | some st =>
          let c2 : Cursor := { stack := st, inited := true, eof := false }
          match cursorRead st with
          | some kv => (BtRc.ok, c2, some kv)
          | none => (BtRc.fail Errno.EIO, c2, none)

inductive CursorOp
  | BT_CURSOR
  | BT_CURSOR_EXACT
  | BT_FIRST
  | BT_NEXT
  deriving DecidableEq

/-- btree_cursor_get (btree.c lines 1507-1548): operation dispatch.  The
positioning operations clear the stack first and validate the key;
BT_NEXT on an uninitialized cursor behaves as BT_FIRST. -/
def btree_cursor_get (root : Option BTree) (c : Cursor) (op : CursorOp)
    (key : Option Bytes) : BtRc × Cursor × Option (Bytes × Bytes) :=
  match op with
  | .BT_CURSOR =>
      let c0 := { c with stack := ([] : CStack) }
      match key with
      | none => (BtRc.fail Errno.EINVAL, c0, none)
      | some k =>
          if k.length = 0 ∨ MAXKEYSIZE < k.length then
            (BtRc.fail Errno.EINVAL, c0, none)
          else btree_cursor_set root c0 k false
  | .BT_CURSOR_EXACT =>
      let c0 := { c with stack := ([] : CStack) }
      match key with
      | none => (BtRc.fail Errno.EINVAL, c0, none)
      | some k =>
          if k.length = 0 ∨ MAXKEYSIZE < k.length then
            (BtRc.fail Errno.EINVAL, c0, none)
          else btree_cursor_set root c0 k true
  | .BT_NEXT =>
      if ¬ c.inited then btree_cursor_first root c
      else btree_cursor_next c
  | .BT_FIRST =>
      btree_cursor_first root { c with stack := ([] : CStack) }

/-- Concrete one-leaf, one-record tree for exercising the cursor. -/
def tC10 : BTree := .leaf [⟨[1], [2], false⟩]

/-- A cursor on tC10 that has already walked past the end. -/
def cC10 : Cursor := { stack := [(tC10, 0)], inited := true, eof := true }

/-- The cursor produced by a successful BT_FIRST on tC10. -/
def cC10f : Cursor := { stack := [(tC10, 0)], inited := true, eof := false }

/-! ## Cursor traversal (claim C2) -/

mutual

/-- Every page of the subtree carries at least one node: the structural
invariant the engine maintains (pages are created nonempty and rebalance
removes pages before they empty). -/
def neT : BTree → Bool
  | .leaf ns => !ns.isEmpty
  | .branch ns => !ns.isEmpty && neL ns

def neL : List (Bytes × BTree) → Bool
  | [] => true
  | n :: rest => neT n.2 && neL rest

end

mutual

/-- All leaves of the subtree sit exactly d levels down: the balance
invariant of the B+tree (split only ever grows the tree at the root). -/
def depthOkT : Nat → BTree → Bool
  | d, .leaf _ => decide (d = 1)
  | d, .branch ns => decide (2 ≤ d) && depthOkL (d - 1) ns

def depthOkL : Nat → List (Bytes × BTree) → Bool
  | _, [] => true
  | d, n :: rest => depthOkT d n.2 && depthOkL d rest

end

/-- Strictly increasing under the canonical comparison. -/
def strictInc : List Bytes → Bool
  | [] => true
  | [_] => true
  | a :: b :: rest => decide (memncmp a b < 0) && strictInc (b :: rest)

/-- Logical content of child i of a branch page with context cx. -/
def childAt (cx : Ctx) (ns : List (Bytes × BTree)) (i : Nat) :
    List (Bytes × Bytes) :=
  match ns[i]? with
  | some nd => flattenCtx nd.2 (childCtx cx ns i)
  | none => []

/-- Logical content of children j, j+1, ... of a branch page. -/
def restChildren (cx : Ctx) (ns : List (Bytes × BTree)) (j : Nat) :
    List (Bytes × Bytes) :=
  ((List.range' j (ns.length - j)).map (childAt cx ns)).flatten

/-- The records that lie strictly after the position a cursor stack
denotes, in traversal order. -/
def restStk : CStack → List (Bytes × Bytes)
  | [] => []
  | (p, ki) :: up =>
      (match p with
       | .leaf ns => (ns.drop (ki + 1)).map
           (fun n => ((ctxOfStack ((p, ki) :: up)).pfx ++ n.ksfx, n.dval))
       | .branch ns =>
           restChildren (ctxOfStack ((p, ki) :: up)) ns (ki + 1))
      ++ restStk up

/-- Well-formed cursor stack whose top page sits at depth d: each frame
holds a nonempty, uniformly deep page, its index is in range, and each
page is the child its parent frame points at. -/
def stkInv : Nat → CStack → Prop
  | _, [] => True
  | d, (p, ki) :: up =>
      neT p = true ∧ depthOkT d p = true ∧ ki < numkeysT p ∧
      (match up with
       | [] => True
       | (q, qki) :: _ =>
           (match q with
            | .branch qns => ∃ s, qns[qki]? = some (s, p)
            | .leaf _ => False) ∧ stkInv (d + 1) up)

/-- anc is a valid ancestor stack for a page p at depth d. -/
def stkInvUnder (d : Nat) (p : BTree) (anc : CStack) : Prop :=
  match anc with
  | [] => True
  | (q, qki) :: _ =>
      (match q with
       | .branch qns => ∃ s, qns[qki]? = some (s, p)
       | .leaf _ => False) ∧ stkInv (d + 1) anc

/-- Repeated BT_NEXT through btree_cursor_get, collecting keys until a
call fails or the fuel runs out; also returns the final cursor. -/
def iterNextGo (root : Option BTree) : Nat → Cursor → List Bytes × Cursor
  | 0, c => ([], c)
  | fuel + 1, c =>
      match btree_cursor_get root c CursorOp.BT_NEXT none with
      | (BtRc.ok, c2, some kv) =>
          let r := iterNextGo root fuel c2
          (kv.1 :: r.1, r.2)
      | (_, c2, _) => ([], c2)

/-- The cursor traversal of the claim: BT_FIRST on a fresh cursor, then
repeated BT_NEXT. -/
def traverseC2 (root : Option BTree) (fuel : Nat) : List Bytes × Cursor :=
  match btree_cursor_get root ⟨[], false, false⟩ CursorOp.BT_FIRST none with
  | (BtRc.ok, c1, some kv) =>
      let r := iterNextGo root fuel c1
      (kv.1 :: r.1, r.2)
  | (_, c1, _) => ([], c1)

/-- A two-level prefix-compressed tree for exercising the traversal:
the middle leaf sits between separators 3,1 and 3,9 and so carries
page prefix 3. -/
def tC2 : BTree := .branch
  [([], .leaf [⟨[1], [100], false⟩, ⟨[2], [101], false⟩]),
   ([3, 1], .leaf [⟨[1], [102], false⟩, ⟨[5], [103], false⟩]),
   ([3, 9], .leaf [⟨[3, 9], [104], false⟩, ⟨[4], [105], false⟩])]

def dbC3 : DbT :=
  { psize := 4096, entries := 0, depth := 0, leaf_pages := 0,
    branch_pages := 0 }

def txnC3 : TxnT := { root := none, rdonly := false, errored := false }

def putC3_1 : BtRc × DbT × TxnT := btree_txn_put dbC3 txnC3 [1] [7]

def putC3_2 : BtRc × DbT × TxnT :=
  btree_txn_put putC3_1.2.1 putC3_1.2.2 [1] [7]

def dbW3 : DbT :=
  { psize := 4096, entries := 5, depth := 2, leaf_pages := 3,
    branch_pages := 1 }

/-- A two-level prefix-compressed tree holding key 3,5 (stored as suffix
5 under page prefix 3 on the middle leaf) for exercising the overwrite
theorem on a multi-page database. -/
def tC3wns : List (Bytes × BTree) :=
  [([], .leaf [⟨[1], [200], false⟩, ⟨[2], [201], false⟩]),
   ([3, 1], .leaf [⟨[1], [202], false⟩, ⟨[5], [203], false⟩]),
   ([3, 9], .leaf [⟨[3, 9], [204], false⟩, ⟨[4], [205], false⟩])]

def tC3w : BTree := .branch tC3wns

def txnW3 : TxnT :=
  { root := some tC3w, rdonly := false, errored := false }

theorem memcmpN_cons (a b : Nat) (as bs : Bytes) (n : Nat) :
    memcmpN (a :: as) (b :: bs) (n + 1) =
      if a < b then -1 else if b < a then 1 else memcmpN as bs n := rfl

theorem memncmp_eq_lexCmp : ∀ a b : Bytes, memncmp a b = lexCmp a b := by
  intro a
  induction a with
  | nil =>
      intro b
      cases b with
      | nil => simp [memncmp, lexCmp, memcmpN]
      | cons y ys => simp [memncmp, lexCmp, memcmpN]
  | cons x xs ih =>
      intro b
      cases b with
      | nil => simp [memncmp, lexCmp, memcmpN]
      | cons y ys =>
          by_cases hxy : x < y
          · have h1 : ∀ n : Nat, memcmpN (x :: xs) (y :: ys) (n + 1) = -1 := by
              intro n; simp [memcmpN_cons, hxy]
            simp [memncmp, lexCmp, List.length_cons, h1, hxy]
          · by_cases hyx : y < x
            · have h1 : ∀ n : Nat, memcmpN (x :: xs) (y :: ys) (n + 1) = 1 := by
                intro n; simp [memcmpN_cons, hxy, hyx]
              simp [memncmp, lexCmp, List.length_cons, h1, hxy, hyx]
            · have hxy' : x = y := by omega
              subst hxy'
              have hmc : ∀ n : Nat, memcmpN (x :: xs) (x :: ys) (n + 1) =
                  memcmpN xs ys n := by
                intro n; simp [memcmpN_cons]
              have hstep : memncmp (x :: xs) (x :: ys) = memncmp xs ys := by
                simp only [memncmp, List.length_cons, hmc, gt_iff_lt,
                  Nat.add_lt_add_iff_right]
              rw [hstep, ih ys]
              simp [lexCmp]

theorem lexCmp_self : ∀ a : Bytes, lexCmp a a = 0 := by
  intro a
  induction a with
  | nil => rfl
  | cons x xs ih => simp [lexCmp, ih]

theorem lexCmp_eq_zero_iff : ∀ a b : Bytes, lexCmp a b = 0 ↔ a = b := by
  intro a
  induction a with
  | nil =>
      intro b
      cases b <;> simp [lexCmp]
  | cons x xs ih =>
      intro b
      cases b with
      | nil => simp [lexCmp]
      | cons y ys =>
          by_cases hxy : x < y
          · simp [lexCmp, hxy]
            omega
          · by_cases hyx : y < x
            · simp [lexCmp, hxy, hyx]
              omega
            · have : x = y := by omega
              subst this
              simp [lexCmp, ih ys]

theorem lexCmp_vals : ∀ a b : Bytes,
    lexCmp a b = -1 ∨ lexCmp a b = 0 ∨ lexCmp a b = 1 := by
  intro a
  induction a with
  | nil => intro b; cases b <;> simp [lexCmp]
  | cons x xs ih =>
      intro b
      cases b with
      | nil => simp [lexCmp]
      | cons y ys =>
          by_cases hxy : x < y
          · simp [lexCmp, hxy]
          · by_cases hyx : y < x
            · simp [lexCmp, hxy, hyx]
            · simp [lexCmp, hxy, hyx, ih ys]

theorem lexCmp_swap : ∀ a b : Bytes, lexCmp b a = -lexCmp a b := by
  intro a
  induction a with
  | nil => intro b; cases b <;> simp [lexCmp]
  | cons x xs ih =>
      intro b
      cases b with
      | nil => simp [lexCmp]
      | cons y ys =>
          by_cases hxy : x < y
          · have : ¬ y < x := by omega
            simp [lexCmp, hxy, this]
          · by_cases hyx : y < x
            · simp [lexCmp, hxy, hyx]
            · simp [lexCmp, hxy, hyx, ih ys]

theorem lexCmp_lt_trans : ∀ a b c : Bytes,
    lexCmp a b < 0 → lexCmp b c < 0 → lexCmp a c < 0 := by
  intro a
  induction a with
  | nil =>
      intro b c hab hbc
      cases b with
      | nil => simp [lexCmp_self] at hab
      | cons y ys =>
          cases c with
          | nil => simp [lexCmp] at hbc
          | cons z zs => simp [lexCmp]
  | cons x xs ih =>
      intro b c hab hbc
      cases b with
      | nil => simp [lexCmp] at hab
      | cons y ys =>
          cases c with
          | nil => simp [lexCmp] at hbc
          | cons z zs =>
              simp only [lexCmp] at hab hbc ⊢
              by_cases hxy : x < y
              · by_cases hyz : y < z
                · have hxz : x < z := by omega
                  simp [hxz]
                · by_cases hzy : z < y
                  · simp [hxy, hyz, hzy] at hbc
                  · have : y = z := by omega
                    subst this
                    simp [hxy]
              · by_cases hyx : y < x
                · simp [hxy, hyx] at hab
                · have hxy' : x = y := by omega
                  subst hxy'
                  simp only [lt_irrefl, if_false] at hab
                  by_cases hyz : x < z
                  · simp [hyz]
                  · by_cases hzy : z < x
                    · simp [hyz, hzy] at hbc
                    · have : x = z := by omega
                      subst this
                      simp only [lt_irrefl, if_false] at hbc ⊢
                      exact ih ys zs hab hbc

theorem lexCmp_append_same : ∀ p a b : Bytes,
    lexCmp (p ++ a) (p ++ b) = lexCmp a b := by
  intro p
  induction p with
  | nil => intro a b; rfl
  | cons x xs ih => intro a b; simp [lexCmp, ih]

theorem lexCmp_of_strictPfx : ∀ a b : Bytes, strictPfx a b → lexCmp a b = -1 := by
  intro a
  induction a with
  | nil =>
      intro b hb
      cases b with
      | nil => simp [strictPfx] at hb
      | cons y ys => rfl
  | cons x xs ih =>
      intro b hb
      cases b with
      | nil => simp [strictPfx] at hb
      | cons y ys =>
          obtain ⟨hlen, htake⟩ := hb
          simp only [List.length_cons, List.take_succ_cons, List.cons.injEq] at hlen htake
          obtain ⟨hy, hys⟩ := htake
          subst hy
          simp only [lexCmp, lt_irrefl, if_false]
          exact ih ys ⟨by omega, hys⟩

theorem lexCmp_firstDiff : ∀ (i : Nat) (a b : Bytes) (ai bi : Nat),
    a.take i = b.take i → a[i]? = some ai → b[i]? = some bi → ai ≠ bi →
    lexCmp a b = if ai < bi then -1 else 1 := by
  intro i
  induction i with
  | zero =>
      intro a b ai bi _ ha hb hne
      cases a with
      | nil => simp at ha
      | cons x xs =>
          cases b with
          | nil => simp at hb
          | cons y ys =>
              simp only [List.getElem?_cons_zero, Option.some.injEq] at ha hb
              subst ha; subst hb
              by_cases h : x < y
              · simp [lexCmp, h]
              · have h2 : y < x := by omega
                simp [lexCmp, h, h2]
  | succ i ih =>
      intro a b ai bi htake ha hb hne
      cases a with
      | nil => simp at ha
      | cons x xs =>
          cases b with
          | nil => simp at hb
          | cons y ys =>
              simp only [List.take_succ_cons, List.cons.injEq] at htake
              obtain ⟨hxy, htake⟩ := htake
              subst hxy
              simp only [List.getElem?_cons_succ] at ha hb
              simp only [lexCmp, lt_irrefl, if_false]
              exact ih xs ys ai bi htake ha hb hne

/-- C5: for all byte strings a and b, the canonical comparison memncmp
(used by btree_cmp) returns a negative result when a is a strict
byte-prefix of b, a positive result when b is a strict byte-prefix of a,
otherwise the sign of the first differing byte (bytes compared as
unsigned values), and it returns 0 exactly when a equals b. -/
theorem claim_C5_memncmp_canonical (a b : Bytes) :
    (strictPfx a b → memncmp a b < 0) ∧
    (strictPfx b a → 0 < memncmp a b) ∧
    (∀ (i ai bi : Nat), a.take i = b.take i → a[i]? = some ai →
        b[i]? = some bi → ai ≠ bi →
        memncmp a b = if ai < bi then -1 else 1) ∧
    (memncmp a b = 0 ↔ a = b) := by
  refine ⟨?_, ?_, ?_, ?_⟩
  · intro h
    rw [memncmp_eq_lexCmp, lexCmp_of_strictPfx a b h]
    decide
  · intro h
    rw [memncmp_eq_lexCmp, lexCmp_swap b a, lexCmp_of_strictPfx b a h]
    decide
  · intro i ai bi htake ha hb hne
    rw [memncmp_eq_lexCmp]
    exact lexCmp_firstDiff i a b ai bi htake ha hb hne
  · rw [memncmp_eq_lexCmp]
    exact lexCmp_eq_zero_iff a b

/-- Witness for C5 at concrete inputs: a strict prefix compares less, and
a first-differing-byte pair compares by that byte. -/
theorem claim_C5_memncmp_canonical_witness :
    memncmp [1] [1, 2] < 0 ∧ memncmp [5, 9] [5, 7, 1] = 1 := by
  constructor
  · exact (claim_C5_memncmp_canonical [1] [1, 2]).1 ⟨by decide, by decide⟩
  · have h := (claim_C5_memncmp_canonical [5, 9] [5, 7, 1]).2.2.1 1 9 7
      (by decide) (by decide) (by decide) (by decide)
    simpa using h

theorem sepScan_spec : ∀ a b : Bytes, lexCmp a b < 0 →
    a.take (sepScan a b) = b.take (sepScan a b) ∧
    sepScan a b < b.length ∧
    (sepScan a b = a.length ∨
      ∃ x y, a[sepScan a b]? = some x ∧ b[sepScan a b]? = some y ∧ x < y) := by
  intro a
  induction a with
  | nil =>
      intro b h
      cases b with
      | nil => simp [lexCmp_self] at h
      | cons y ys => simp [sepScan]
  | cons x xs ih =>
      intro b h
      cases b with
      | nil => simp [lexCmp] at h
      | cons y ys =>
          by_cases hxy : x = y
          · subst hxy
            simp only [lexCmp, lt_irrefl, if_false] at h
            obtain ⟨h1, h2, h3⟩ := ih ys h
            refine ⟨?_, ?_, ?_⟩
            · simp [sepScan, List.take_succ_cons, h1]
            · simp only [sepScan, eq_self_iff_true, if_true, List.length_cons]
              omega
            · rcases h3 with h3 | ⟨u, v, hu, hv, huv⟩
              · left; simp [sepScan, h3]
              · right
                exact ⟨u, v, by simpa [sepScan] using hu,
                  by simpa [sepScan] using hv, huv⟩
          · have hlt : x < y := by
              by_contra hc
              have : y < x := by omega
              simp [lexCmp, this, hxy] at h
              omega
            have hne : ¬ x = y := hxy
            refine ⟨by simp [sepScan, hne], by simp [sepScan, hne], ?_⟩
            right
            exact ⟨x, y, by simp [sepScan, hne], by simp [sepScan, hne], hlt⟩

theorem lexCmp_take_self (a : Bytes) (m : Nat) : 0 ≤ lexCmp a (a.take m) := by
  by_cases h : a.length ≤ m
  · rw [List.take_of_length_le h, lexCmp_self]
  · have hl : (a.take m).length = m := by rw [List.length_take]; omega
    have hs : strictPfx (a.take m) a := by
      refine ⟨?_, ?_⟩
      · omega
      · rw [hl]
    rw [lexCmp_swap, lexCmp_of_strictPfx (a.take m) a hs]
    decide

/-- C6: given a separator candidate sep that sorts strictly greater than
the last key of the left half (minKey), bt_reduce_separator truncates sep
to the minimum length at which the truncation still compares strictly
greater than minKey under the canonical comparison.  (btree_split applies
it at a leaf split with sep the first key of the right half, or the new
key when it lands at the split index, and minKey the key at
split_indx - 1; see btree.c lines 2314-2331.) -/
theorem claim_C6_separator_reduction (minKey sep : Bytes)
    (h : memncmp minKey sep < 0) :
    memncmp minKey (bt_reduce_separator minKey sep) < 0 ∧
    ∀ m, m < (bt_reduce_separator minKey sep).length →
      ¬ memncmp minKey (sep.take m) < 0 := by
  rw [memncmp_eq_lexCmp] at h
  obtain ⟨htake, hlt, hcase⟩ := sepScan_spec minKey sep h
  have hlen : (sep.take (sepScan minKey sep + 1)).length
      = sepScan minKey sep + 1 := by
    rw [List.length_take]; omega
  constructor
  · rw [memncmp_eq_lexCmp]
    unfold bt_reduce_separator
    rcases hcase with hend | ⟨x, y, hx, hy, hxy⟩
    · have hsepn : sep.take (sepScan minKey sep) = minKey := by
        rw [← htake, hend, List.take_length]
      have hpfx : strictPfx minKey (sep.take (sepScan minKey sep + 1)) := by
        refine ⟨by omega, ?_⟩
        rw [← hend, List.take_take]
        have hmin : min (sepScan minKey sep) (sepScan minKey sep + 1)
            = sepScan minKey sep := by omega
        rw [hmin, hsepn]
      rw [lexCmp_of_strictPfx _ _ hpfx]
      decide
    · have hne : x ≠ y := by omega
      have htk : minKey.take (sepScan minKey sep) =
          (sep.take (sepScan minKey sep + 1)).take (sepScan minKey sep) := by
        rw [List.take_take]
        have hmin : min (sepScan minKey sep) (sepScan minKey sep + 1)
            = sepScan minKey sep := by omega
        rw [hmin, htake]
      have hy' : (sep.take (sepScan minKey sep + 1))[sepScan minKey sep]?
          = some y := by
        rw [List.getElem?_take]
        simp [hy]
      rw [lexCmp_firstDiff (sepScan minKey sep) _ _ x y htk hx hy' hne]
      simp [hxy]
  · intro m hm
    rw [memncmp_eq_lexCmp]
    unfold bt_reduce_separator at hm
    rw [hlen] at hm
    have hmn : m ≤ sepScan minKey sep := by omega
    have heq : sep.take m = minKey.take m := by
      have hc := congrArg (List.take m) htake
      rw [List.take_take, List.take_take, min_eq_left hmn] at hc
      exact hc.symm
    rw [heq]
    have := lexCmp_take_self minKey m
    omega

/-- Witness for C6: with minKey 010203 and candidate 01020507 the reduced
separator 010205 still sorts above minKey, while the length-2 truncation
0102 does not. -/
theorem claim_C6_separator_reduction_witness :
    memncmp [1, 2, 3] (bt_reduce_separator [1, 2, 3] [1, 2, 5, 7]) < 0 ∧
    ¬ memncmp [1, 2, 3] (List.take 2 [1, 2, 5, 7]) < 0 := by
  have h := claim_C6_separator_reduction [1, 2, 3] [1, 2, 5, 7] (by decide)
  exact ⟨h.1, h.2 2 (by decide)⟩

theorem writeOvGo_spec : ∀ (fuel maxsz start : Nat) (data : Bytes),
    0 < maxsz → data.length ≤ fuel →
    ((writeOvGo fuel maxsz start data).map OvPage.content).flatten = data ∧
    (writeOvGo fuel maxsz start data).map OvPage.pgno =
      List.range' start (writeOvGo fuel maxsz start data).length ∧
    linksOk (writeOvGo fuel maxsz start data) := by
  intro fuel
  induction fuel with
  | zero =>
      intro maxsz start data hm hf
      have : data = [] := by
        cases data with
        | nil => rfl
        | cons b bs => simp at hf
      subst this
      simp [writeOvGo, linksOk]
  | succ fuel ih =>
      intro maxsz start data hm hf
      cases data with
      | nil => simp [writeOvGo, linksOk]
      | cons b bs =>
          have hlen : (b :: bs).length = bs.length + 1 := rfl
          have hrest : ((b :: bs).drop (min (b :: bs).length maxsz)).length
              ≤ fuel := by
            rw [List.length_drop]
            simp only [hlen] at hf ⊢
            omega
          obtain ⟨ih1, ih2, ih3⟩ :=
            ih maxsz (start + 1) ((b :: bs).drop (min (b :: bs).length maxsz))
              hm hrest
          have hunf : writeOvGo (fuel + 1) maxsz start (b :: bs) =
              ⟨start, if maxsz < (b :: bs).length then start + 1 else 0,
                (b :: bs).take (min (b :: bs).length maxsz)⟩ ::
                writeOvGo fuel maxsz (start + 1)
                  ((b :: bs).drop (min (b :: bs).length maxsz)) := rfl
          rw [hunf]
          refine ⟨?_, ?_, ?_⟩
          · simp only [List.map_cons, List.flatten_cons, ih1]
            exact List.take_append_drop _ _
          · simp only [List.map_cons, List.length_cons, List.range'_succ]
            exact congrArg (List.cons start) ih2
          · by_cases hmore : maxsz < (b :: bs).length
            · have hdlen : 0 < ((b :: bs).drop
                  (min (b :: bs).length maxsz)).length := by
                rw [List.length_drop]
                omega
              cases hds : (b :: bs).drop (min (b :: bs).length maxsz) with
              | nil =>
                  rw [hds] at hdlen
                  simp at hdlen
              | cons c cs =>
                  rw [hds] at ih1 ih2 ih3
                  cases hwg : writeOvGo fuel maxsz (start + 1) (c :: cs) with
                  | nil =>
                      rw [hwg] at ih1
                      simp at ih1
                  | cons p ps =>
                      rw [hwg] at ih2 ih3
                      simp only [List.map_cons, List.length_cons,
                        List.range'_succ] at ih2
                      injection ih2 with hp hrest2
                      refine ⟨?_, ih3⟩
                      have hmore2 : maxsz < bs.length + 1 := by
                        simpa using hmore
                      simp [hmore2, hp]
            · have hdrop : (b :: bs).drop (min (b :: bs).length maxsz) = [] := by
                apply List.length_eq_zero.mp
                rw [List.length_drop]
                omega
              rw [hdrop]
              have hz : writeOvGo fuel maxsz (start + 1) [] = [] := by
                cases fuel <;> rfl
              rw [hz]
              show (if maxsz < (b :: bs).length then start + 1 else 0) = 0
              rw [if_neg hmore]

/-- C4 counterexample: with page size 4096 a payload of exactly
psize / BT_MINKEYS = 1024 bytes is sent to an overflow chain by
btree_add_node (the test is data size GREATER OR EQUAL psize/BT_MINKEYS,
btree.c line 1653), yet its size does not exceed P/BT_MINKEYS, so the
claim that such a payload is stored inline is false. -/
theorem claim_C4_overflow_counterexample :
    ¬ (((btree_add_node_leaf 4096 5 [97] (List.replicate 1024 7)).1.big
          = false) ↔
        (List.replicate 1024 (7 : Nat)).length ≤ 4096 / BT_MINKEYS) := by
  intro h
  have hcond : 4096 / BT_MINKEYS ≤ (List.replicate (α := Nat) 1024 7).length := by
    rw [List.length_replicate]
    norm_num [BT_MINKEYS]
  have hbig : (btree_add_node_leaf 4096 5 [97]
      (List.replicate 1024 7)).1.big = true := by
    unfold btree_add_node_leaf
    rw [if_pos hcond]
  rw [hbig, List.length_replicate] at h
  norm_num [BT_MINKEYS] at h

/-- C4 amended: a leaf payload is stored inline exactly when its size is
strictly below psize / BT_MINKEYS; a payload of size at least
psize / BT_MINKEYS is written to a singly-linked chain of OVERFLOW pages
with consecutive page numbers whose contents concatenate back to the
data, and the leaf node then stores the head overflow page number and
the total logical data size in n_dsize. -/
theorem claim_C4_overflow_threshold (psize nextPgno : Nat) (key data : Bytes)
    (hp : PAGEHDRSZ < psize) :
    ((btree_add_node_leaf psize nextPgno key data).1.big = false ↔
        data.length < psize / BT_MINKEYS) ∧
    (btree_add_node_leaf psize nextPgno key data).1.dsize = data.length ∧
    (psize / BT_MINKEYS ≤ data.length →
      (btree_add_node_leaf psize nextPgno key data).1.payload
          = Sum.inr nextPgno ∧
      (((btree_add_node_leaf psize nextPgno key data).2.map
          OvPage.content).flatten = data ∧
        (btree_add_node_leaf psize nextPgno key data).2.map OvPage.pgno =
          List.range' nextPgno
            (btree_add_node_leaf psize nextPgno key data).2.length ∧
        linksOk (btree_add_node_leaf psize nextPgno key data).2)) ∧
    (data.length < psize / BT_MINKEYS →
      (btree_add_node_leaf psize nextPgno key data).1.payload = Sum.inl data ∧
      (btree_add_node_leaf psize nextPgno key data).2 = []) := by
  by_cases hc : psize / BT_MINKEYS ≤ data.length
  · have hmax : 0 < psize - PAGEHDRSZ := by
      unfold PAGEHDRSZ at hp ⊢
      omega
    obtain ⟨h1, h2, h3⟩ := writeOvGo_spec data.length (psize - PAGEHDRSZ)
      nextPgno data hmax (le_refl _)
    simp only [btree_add_node_leaf, if_pos hc, btree_write_overflow_data]
    refine ⟨by simpa using hc, by simp, fun _ => ⟨by simp, h1, h2, h3⟩,
      fun hlt => absurd hlt (not_lt.mpr hc)⟩
  · simp only [btree_add_node_leaf, if_neg hc]
    refine ⟨by simpa using hc, by simp, fun hge => absurd hge hc,
      fun _ => ⟨by simp, by simp⟩⟩

/-- Witness for C4 amended at page size 16: the 6-byte payload meets the
threshold 16/4 = 4, goes to a two-page overflow chain at pages 5 and 6,
and concatenates back to the original bytes. -/
theorem claim_C4_overflow_threshold_witness :
    (btree_add_node_leaf 16 5 [9] [1, 2, 3, 4, 5, 6]).1.big = true ∧
    ((btree_add_node_leaf 16 5 [9] [1, 2, 3, 4, 5, 6]).2.map
        OvPage.content).flatten = [1, 2, 3, 4, 5, 6] ∧
    (btree_add_node_leaf 16 5 [9] [1, 2, 3, 4, 5, 6]).2.map OvPage.pgno
        = [5, 6] := by
  have h := claim_C4_overflow_threshold 16 5 [9] [1, 2, 3, 4, 5, 6] (by decide)
  have h3 := h.2.2.1 (by decide)
  refine ⟨by decide, h3.2.1, ?_⟩
  have := h3.2.2.1
  simpa using this

/-- C9: committing a write transaction whose dirty queue is empty
succeeds and writes nothing: the file image, the file size and the last
committed meta are all unchanged. -/
theorem claim_C9_empty_commit (db : DbC) (txn : TxnC)
    (hr : txn.rdonly = false) (hc : txn.current = true)
    (he : txn.errored = false) (hd : txn.dirty_queue = []) :
    btree_txn_commit db txn = (BtRc.ok, db) := by
  simp [btree_txn_commit, hr, hc, he, hd]

/-- Witness for C9 at a concrete database state. -/
theorem claim_C9_empty_commit_witness :
    btree_txn_commit
      { file := [FPage.dataPage 1,
          FPage.metaPage 2 ⟨0, 1, P_INVALID, 0, 1, 0, 1, 1, 1⟩],
        size := 12288, psize := 4096,
        meta := ⟨0, 1, P_INVALID, 0, 1, 0, 1, 1, 1⟩, fixpadding := false }
      { root := 1, next_pgno := 3, rdonly := false, errored := false,
        current := true, dirty_queue := [] }
    = (BtRc.ok,
      { file := [FPage.dataPage 1,
          FPage.metaPage 2 ⟨0, 1, P_INVALID, 0, 1, 0, 1, 1, 1⟩],
        size := 12288, psize := 4096,
        meta := ⟨0, 1, P_INVALID, 0, 1, 0, 1, 1, 1⟩, fixpadding := false }) :=
  claim_C9_empty_commit _ _ rfl rfl rfl rfl

/-- C7 counterexample: after two commits, the second meta page's
prev_meta field is 1 (the root page committed by the first meta), not 2
(the page number of the first meta page, which the claim requires), and
not P_INVALID either: btree_write_meta stores bt->meta.root, the
previously committed ROOT page number, in prev_meta (btree.c line 767),
so valid meta pages do not chain to each other by page number. -/
theorem claim_C7_prev_meta_counterexample :
    lastMetaPgno dbC7_1.file = some 2 ∧
    dbC7_2.meta.prev_meta = 1 ∧
    dbC7_2.meta.prev_meta ≠ 2 ∧
    dbC7_2.meta.prev_meta ≠ P_INVALID := by
  refine ⟨rfl, rfl, ?_, ?_⟩ <;> decide

/-- C7 amended: every meta page written by a successful commit carries in
prev_meta the ROOT page number recorded by the previous meta (the
previously committed root, or P_INVALID when no root had ever been
committed), and its root field is the committing transaction's root, so
successive meta pages chain the history of root pages through prev_meta
(spec section 3 invariant: root page numbers observed in successive
valid meta pages form a chain via prev_meta). -/
theorem claim_C7_prev_meta_chain (db : DbC) (txn : TxnC)
    (hr : txn.rdonly = false) (hc : txn.current = true)
    (he : txn.errored = false) (hd : txn.dirty_queue ≠ []) :
    (btree_txn_commit db txn).1 = BtRc.ok ∧
    (btree_txn_commit db txn).2.meta.prev_meta = db.meta.root ∧
    (btree_txn_commit db txn).2.meta.root = txn.root ∧
    (btree_txn_commit db txn).2.file.getLast? =
      some (FPage.metaPage txn.next_pgno (btree_txn_commit db txn).2.meta) := by
  by_cases hf : db.fixpadding <;>
    simp [btree_txn_commit, btree_write_meta, hr, hc, he, hd, hf,
      List.getLast?_concat]

/-- Witness for C7 amended: the second commit of the concrete trace
above records prev_meta = 1, the previously committed root. -/
theorem claim_C7_prev_meta_chain_witness :
    (btree_txn_commit dbC7_1 txnC7_2).1 = BtRc.ok ∧
    (btree_txn_commit dbC7_1 txnC7_2).2.meta.prev_meta = dbC7_1.meta.root :=
  ⟨(claim_C7_prev_meta_chain dbC7_1 txnC7_2 rfl rfl rfl (by decide)).1,
    (claim_C7_prev_meta_chain dbC7_1 txnC7_2 rfl rfl rfl (by decide)).2.1⟩

/-- C8 counterexample: btree_txn_put on a read-only transaction fails
with errno EINVAL (INVALID-ARGUMENT), not EPERM (btree.c lines
2446-2449 set errno = EINVAL), so the claim that every write operation
on a read-only transaction surfaces PERM is false already for put. -/
theorem claim_C8_perm_counterexample :
    (btree_txn_put dbT8 txnT8 [1] [2]).1 = BtRc.fail Errno.EINVAL ∧
    Errno.EINVAL ≠ Errno.EPERM := by
  constructor
  · rfl
  · decide

/-- C8 amended: every write operation on a read-only transaction fails
and changes nothing, but the surfaced error kinds differ: put and del
surface INVALID-ARGUMENT (EINVAL, btree.c lines 2446-2449 and
2170-2173), while only commit surfaces PERM (EPERM, lines 606-610). -/
theorem claim_C8_readonly_guards (db : DbT) (txn : TxnT) (dbc : DbC)
    (txnc : TxnC) (h : txn.rdonly = true) (hc : txnc.rdonly = true)
    (k v : Bytes) :
    btree_txn_put db txn k v = (BtRc.fail Errno.EINVAL, db, txn) ∧
    btree_txn_del db txn k = (BtRc.fail Errno.EINVAL, db, txn, none) ∧
    btree_txn_commit dbc txnc = (BtRc.fail Errno.EPERM, dbc) := by
  refine ⟨?_, ?_, ?_⟩
  · simp [btree_txn_put, h]
  · simp [btree_txn_del, h]
  · simp [btree_txn_commit, hc]

/-- Witness for C8 amended at concrete states. -/
theorem claim_C8_readonly_guards_witness :
    btree_txn_put dbT8 txnT8 [1] [2]
        = (BtRc.fail Errno.EINVAL, dbT8, txnT8) ∧
    btree_txn_del dbT8 txnT8 [1]
        = (BtRc.fail Errno.EINVAL, dbT8, txnT8, none) ∧
    btree_txn_commit dbC7_0
        { root := 1, next_pgno := 2, rdonly := true,
          errored := false, current := true, dirty_queue := [] }
        = (BtRc.fail Errno.EPERM, dbC7_0) :=
  claim_C8_readonly_guards dbT8 txnT8 dbC7_0
    { root := 1, next_pgno := 2, rdonly := true,
      errored := false, current := true, dirty_queue := [] } rfl rfl [1] [2]

/-- Every successful btree_cursor_set leaves the cursor initialized with
eof cleared: both success paths build the state literally (btree.c lines
1474-1477). -/
theorem cursorSet_ok (root : Option BTree) (c : Cursor) (key : Bytes)
    (we : Bool) (c2 : Cursor) (kv : Option (Bytes × Bytes))
    (h : btree_cursor_set root c key we = (BtRc.ok, c2, kv)) :
    c2.eof = false ∧ c2.inited = true := by
  cases root with
  | none => exact BtRc.noConfusion (congrArg Prod.fst h)
  | some t =>
      simp only [btree_cursor_set] at h
      cases hsg : cursorSearchGo (hgt t) t rootCtx (some key) [] with
      | none => simp [hsg] at h
      | some st =>
          rcases st with _ | ⟨⟨mp, ki⟩, up⟩
          · simp [hsg] at h
          · cases mp with
            | branch bs => simp [hsg] at h
            | leaf ns =>
                simp only [hsg] at h
                cases hsr : btree_search_node true (List.map LNode.ksfx ns)
                    (ctxOfStack ((BTree.leaf ns, ki) :: up)).pfx key with
                | some p =>
                    obtain ⟨ki2, ex⟩ := p
                    simp only [hsr] at h
                    cases hwe : we && !ex with
                    | true => simp [hwe] at h
                    | false =>
                        rw [hwe, if_neg Bool.false_ne_true] at h
                        cases hcr : cursorRead ((BTree.leaf ns, ki2) :: up) with
                        | none => simp [hcr] at h
                        | some kv2 =>
                            simp only [hcr] at h
                            injection h with h1 h2
                            injection h2 with h2 h3
                            subst h2
                            exact ⟨rfl, rfl⟩
                | none =>
                    simp only [hsr] at h
                    cases we with
                    | true => simp at h
                    | false =>
                        rw [if_neg (by decide)] at h
                        cases hsib : btree_sibling ((BTree.leaf ns, 0) :: up)
                            true with
                        | none => simp [hsib] at h
                        | some st2 =>
                            simp only [hsib] at h
                            cases hcr : cursorRead st2 with
                            | none => simp [hcr] at h
                            | some kv2 =>
                                simp only [hcr] at h
                                injection h with h1 h2
                                injection h2 with h2 h3
                                subst h2
                                exact ⟨rfl, rfl⟩

/-- C10: once a BT_NEXT has moved past the last key the cursor's eof
flag is set (second conjunct: the exhausted-sibling path of
btree_cursor_next sets eof and fails with ENOENT), after which every
BT_NEXT fails with NOT-FOUND leaving the cursor untouched and without
reading the tree (first conjunct: the result is the same for every
root), until a successful BT_CURSOR, BT_CURSOR_EXACT or BT_FIRST
repositions the cursor and clears eof (remaining conjuncts).  The
inited = true hypothesis of the first conjunct is the cursor invariant:
eof is only ever set by btree_cursor_next, which runs on initialized
cursors, and inited is never cleared. -/
theorem claim_C10_cursor_eof (root : Option BTree) (c : Cursor)
    (k : Option Bytes) :
    (c.eof = true → c.inited = true →
      btree_cursor_get root c CursorOp.BT_NEXT k
        = (BtRc.fail Errno.ENOENT, c, none)) ∧
    (∀ mp ki up, c.eof = false → c.stack = (mp, ki) :: up →
      numkeysT mp ≤ ki + 1 → btree_sibling ((mp, ki) :: up) true = none →
      btree_cursor_next c
        = (BtRc.fail Errno.ENOENT, { c with eof := true }, none)) ∧
    (∀ c2 kv, btree_cursor_get root c CursorOp.BT_FIRST k
        = (BtRc.ok, c2, kv) → c2.eof = false ∧ c2.inited = true) ∧
    (∀ kk c2 kv, btree_cursor_get root c CursorOp.BT_CURSOR (some kk)
        = (BtRc.ok, c2, kv) → c2.eof = false ∧ c2.inited = true) ∧
    (∀ kk c2 kv, btree_cursor_get root c CursorOp.BT_CURSOR_EXACT (some kk)
        = (BtRc.ok, c2, kv) → c2.eof = false ∧ c2.inited = true) := by
  refine ⟨?_, ?_, ?_, ?_, ?_⟩
  · intro he hi
    simp [btree_cursor_get, btree_cursor_next, he, hi]
  · intro mp ki up he hs hn hsib
    rw [btree_cursor_next, he, hs]
    simp only [Bool.false_eq_true, if_false]
    rw [if_pos hn, hsib]
  · intro c2 kv h
    simp only [btree_cursor_get] at h
    unfold btree_cursor_first at h
    repeat' split at h
    all_goals simp only [Prod.mk.injEq] at h
    all_goals
      first
        | exact absurd h.1 (fun hh => BtRc.noConfusion hh)
        | (obtain ⟨-, hc, -⟩ := h
           subst hc
           exact ⟨rfl, rfl⟩)
  · intro kk c2 kv h
    simp only [btree_cursor_get] at h
    split at h
    · exact BtRc.noConfusion (congrArg Prod.fst h)
    · exact cursorSet_ok _ _ _ _ _ _ h
  · intro kk c2 kv h
    simp only [btree_cursor_get] at h
    split at h
    · exact BtRc.noConfusion (congrArg Prod.fst h)
    · exact cursorSet_ok _ _ _ _ _ _ h

theorem claim_C10_cursor_eof_witness :
    btree_cursor_get (some tC10) cC10 CursorOp.BT_NEXT none
      = (BtRc.fail Errno.ENOENT, cC10, none) ∧
    cC10f.eof = false ∧ cC10f.inited = true :=
  ⟨(claim_C10_cursor_eof (some tC10) cC10 none).1 rfl rfl,
   (claim_C10_cursor_eof (some tC10) cC10 none).2.2.1 cC10f
     (some ([1], [2])) rfl⟩

theorem hgt_child_le : ∀ (ns : List (Bytes × BTree)) (i : Nat)
    (nd : Bytes × BTree), ns[i]? = some nd → hgt nd.2 ≤ hgtL ns := by
  intro ns
  induction ns with
  | nil => intro i nd h; simp at h
  | cons n rest ih =>
      intro i nd h
      cases i with
      | zero =>
          simp at h
          subst h
          exact le_max_left _ _
      | succ i =>
          simp only [List.getElem?_cons_succ] at h
          exact le_trans (ih i nd h) (le_max_right _ _)

theorem neL_child : ∀ (ns : List (Bytes × BTree)) (i : Nat)
    (nd : Bytes × BTree), neL ns = true → ns[i]? = some nd →
    neT nd.2 = true := by
  intro ns
  induction ns with
  | nil => intro i nd _ h; simp at h
  | cons n rest ih =>
      intro i nd hne h
      simp only [neL, Bool.and_eq_true] at hne
      cases i with
      | zero => simp at h; subst h; exact hne.1
      | succ i =>
          simp only [List.getElem?_cons_succ] at h
          exact ih i nd hne.2 h

theorem depthOkL_child : ∀ (ns : List (Bytes × BTree)) (d i : Nat)
    (nd : Bytes × BTree), depthOkL d ns = true → ns[i]? = some nd →
    depthOkT d nd.2 = true := by
  intro ns
  induction ns with
  | nil => intro d i nd _ h; simp at h
  | cons n rest ih =>
      intro d i nd hd h
      simp only [depthOkL, Bool.and_eq_true] at hd
      cases i with
      | zero => simp at h; subst h; exact hd.1
      | succ i =>
          simp only [List.getElem?_cons_succ] at h
          exact ih d i nd hd.2 h

theorem ne_numkeys (t : BTree) (h : neT t = true) : 0 < numkeysT t := by
  cases t with
  | leaf ns =>
      simp only [neT] at h
      simp only [Bool.not_eq_true', List.isEmpty_eq_false] at h
      simpa [numkeysT, List.length_pos_iff_ne_nil] using h
  | branch ns =>
      simp only [neT, Bool.and_eq_true] at h
      have h1 := h.1
      simp only [Bool.not_eq_true', List.isEmpty_eq_false] at h1
      simpa [numkeysT, List.length_pos_iff_ne_nil] using h1

theorem ctxOfStack_ki (p : BTree) (a b : Nat) (up : CStack) :
    ctxOfStack ((p, a) :: up) = ctxOfStack ((p, b) :: up) := by
  cases up with
  | nil => rfl
  | cons f up2 => obtain ⟨q, qki⟩ := f; rfl

theorem flattenGo_hgt : ∀ (fuel : Nat) (t : BTree) (cx : Ctx),
    hgt t ≤ fuel → flattenGo fuel t cx = flattenGo (hgt t) t cx := by
  intro fuel
  induction fuel using Nat.strong_induction_on with
  | _ fuel ih =>
    intro t cx hle
    cases fuel with
    | zero => cases t <;> simp [hgt] at hle
    | succ fuel =>
        cases t with
        | leaf ns => simp [flattenGo, hgt]
        | branch ns =>
            have hL : hgtL ns ≤ fuel := by
              simpa [hgt] using hle
            simp only [flattenGo, hgt]
            congr 1
            apply List.map_congr_left
            intro i _
            cases hnd : ns[i]? with
            | none => simp
            | some nd =>
                simp only
                have h2 : hgt nd.2 ≤ hgtL ns := hgt_child_le ns i nd hnd
                rw [ih fuel (Nat.lt_succ_self _) nd.2 _ (le_trans h2 hL),
                  ih (hgtL ns) (Nat.lt_succ_of_le hL) nd.2 _ h2]

theorem restChildren_empty (cx : Ctx) (ns : List (Bytes × BTree)) (j : Nat)
    (h : ns.length ≤ j) : restChildren cx ns j = [] := by
  simp [restChildren, Nat.sub_eq_zero_of_le h]

theorem restChildren_step (cx : Ctx) (ns : List (Bytes × BTree)) (j : Nat)
    (h : j < ns.length) :
    restChildren cx ns j = childAt cx ns j ++ restChildren cx ns (j + 1) := by
  have hlen : ns.length - j = (ns.length - (j + 1)) + 1 := by omega
  simp only [restChildren, hlen, List.range'_succ, List.map_cons,
    List.flatten_cons]

theorem flatten_branch (ns : List (Bytes × BTree)) (cx : Ctx) :
    flattenCtx (.branch ns) cx = restChildren cx ns 0 := by
  simp only [flattenCtx, hgt, flattenGo, restChildren, Nat.sub_zero]
  rw [← List.range_eq_range']
  congr 1
  apply List.map_congr_left
  intro i _
  cases hnd : ns[i]? with
  | none => simp [childAt, hnd]
  | some nd =>
      simp only [childAt, hnd]
      exact flattenGo_hgt (hgtL ns) nd.2 _ (hgt_child_le ns i nd hnd)

theorem flatten_ne : ∀ (n : Nat) (t : BTree) (cx : Ctx), hgt t ≤ n →
    neT t = true → flattenCtx t cx ≠ [] := by
  intro n
  induction n with
  | zero => intro t cx h; cases t <;> simp [hgt] at h
  | succ n ih =>
      intro t cx hle hne
      cases t with
      | leaf ns =>
          simp only [neT, Bool.not_eq_true', List.isEmpty_eq_false] at hne
          simp [flattenCtx, hgt, flattenGo, hne]
      | branch ns =>
          simp only [neT, Bool.and_eq_true, Bool.not_eq_true',
            List.isEmpty_eq_false] at hne
          have hlen : 0 < ns.length := List.length_pos_iff_ne_nil.mpr hne.1
          obtain ⟨nd, hnd⟩ : ∃ nd, ns[0]? = some nd := by
            simp [List.getElem?_eq_getElem hlen]
          rw [flatten_branch, restChildren_step cx ns 0 hlen]
          have hchild : childAt cx ns 0 ≠ [] := by
            simp only [childAt, hnd]
            exact ih nd.2 _
              (le_trans (hgt_child_le ns 0 nd hnd) (by simpa [hgt] using hle))
              (neL_child ns 0 nd hne.2 hnd)
          intro hcontra
          exact hchild (List.append_eq_nil.mp hcontra).1

theorem sibling_cons_eq (f : CFrame) (qns : List (Bytes × BTree))
    (qki : Nat) (up2 : CStack) :
    btree_sibling (f :: (BTree.branch qns, qki) :: up2) true =
      if qns.length ≤ qki + 1 then
        match btree_sibling ((BTree.branch qns, qki) :: up2) true with
        | none => none
        | some st2 =>
            match st2 with
            | (BTree.branch qns2, qki2) :: _ =>
                match qns2[qki2]? with
                | some nd => some ((nd.2, 0) :: st2)
                | none => none
            | _ => none
      else
        match qns[qki + 1]? with
        | some nd => some ((nd.2, 0) :: (BTree.branch qns, qki + 1) :: up2)
        | none => none := rfl

theorem cursor_next_leaf_eq (ns : List LNode) (ki : Nat) (up : CStack) :
    btree_cursor_next ⟨(BTree.leaf ns, ki) :: up, true, false⟩ =
      (match (if ns.length ≤ ki + 1
              then btree_sibling ((BTree.leaf ns, ki) :: up) true
              else some ((BTree.leaf ns, ki + 1) :: up)) with
       | none => (BtRc.fail Errno.ENOENT,
           ⟨(BTree.leaf ns, ki) :: up, true, true⟩, none)
       | some st2 =>
           match cursorRead st2 with
           | some kv => (BtRc.ok, ⟨st2, true, false⟩, some kv)
           | none => (BtRc.fail Errno.EIO, ⟨st2, true, false⟩, none)) := rfl

/-- btree_sibling with moveRight walks to the next page at the level
below the given ancestor stack: it fails exactly when nothing remains to
the right, and otherwise lands, slot 0, on the page whose content heads
the remaining records. -/
theorem sib_spec : ∀ (up : CStack) (d : Nat) (f : CFrame),
    2 ≤ d → stkInv d up →
    (restStk up = [] → btree_sibling (f :: up) true = none) ∧
    (∀ r rs, restStk up = r :: rs →
      ∃ p2 st2, btree_sibling (f :: up) true = some ((p2, 0) :: st2) ∧
        stkInv (d - 1) ((p2, 0) :: st2) ∧
        flattenCtx p2 (ctxOfStack ((p2, 0) :: st2)) ++ restStk st2
          = r :: rs) := by
  intro up
  induction up with
  | nil =>
      intro d f _ _
      constructor
      · intro _; rfl
      · intro r rs h; simp [restStk] at h
  | cons qf up2 ih =>
      intro d f hd hinv
      obtain ⟨q, qki⟩ := qf
      obtain ⟨hneq, hdq, hqki, hup⟩ := hinv
      cases q with
      | leaf lns =>
          exfalso
          simp only [depthOkT, decide_eq_true_eq] at hdq
          omega
      | branch qns =>
          have hqlen : qki < qns.length := by simpa [numkeysT] using hqki
          have hinv2 : stkInv (d + 1) up2 := by
            cases up2 with
            | nil => exact trivial
            | cons g up3 =>
                obtain ⟨gq, gki⟩ := g
                exact hup.2
          have hneL : neL qns = true := by
            simp only [neT, Bool.and_eq_true] at hneq
            exact hneq.2
          have hdL : depthOkL (d - 1) qns = true := by
            simp only [depthOkT, Bool.and_eq_true] at hdq
            exact hdq.2
          have hre : restStk ((BTree.branch qns, qki) :: up2)
              = restChildren (ctxOfStack ((BTree.branch qns, qki) :: up2))
                  qns (qki + 1) ++ restStk up2 := by
            simp only [restStk]
          by_cases hb : qns.length ≤ qki + 1
          · -- boundary: climb to the parent
            have hrc : restChildren
                (ctxOfStack ((BTree.branch qns, qki) :: up2)) qns (qki + 1)
                = [] := restChildren_empty _ _ _ hb
            have hre2 : restStk ((BTree.branch qns, qki) :: up2)
                = restStk up2 := by rw [hre, hrc, List.nil_append]
            have hih := ih (d + 1) (BTree.branch qns, qki) (by omega) hinv2
            cases hr2 : restStk up2 with
            | nil =>
                constructor
                · intro _
                  rw [sibling_cons_eq, if_pos hb, hih.1 hr2]
                · intro r rs hr
                  rw [hre2, hr2] at hr
                  exact absurd hr (by simp)
            | cons r' rs' =>
                obtain ⟨p2', st2', hres, hinv', hcont⟩ := hih.2 r' rs' hr2
                simp only [Nat.add_sub_cancel] at hinv'
                obtain ⟨hnep2, hdp2, hk2, hup2'⟩ := hinv'
                cases p2' with
                | leaf l2 =>
                    exfalso
                    simp only [depthOkT, decide_eq_true_eq] at hdp2
                    omega
                | branch qns2 =>
                    have hlen2 : 0 < qns2.length := by
                      simpa [numkeysT] using hk2
                    obtain ⟨nd, h0⟩ : ∃ nd, qns2[0]? = some nd := by
                      simp [List.getElem?_eq_getElem hlen2]
                    have hneL2 : neL qns2 = true := by
                      simp only [neT, Bool.and_eq_true] at hnep2
                      exact hnep2.2
                    have hdL2 : depthOkL (d - 1) qns2 = true := by
                      simp only [depthOkT, Bool.and_eq_true] at hdp2
                      exact hdp2.2
                    constructor
                    · intro h
                      rw [hre2, hr2] at h
                      exact absurd h (by simp)
                    · intro r rs hr
                      rw [hre2, hr2] at hr
                      injection hr with e1 e2
                      subst e1; subst e2
                      refine ⟨nd.2, (BTree.branch qns2, 0) :: st2',
                        ?_, ?_, ?_⟩
                      · rw [sibling_cons_eq, if_pos hb, hres]
                        simp only [h0]
                      · refine ⟨neL_child qns2 0 nd hneL2 h0,
                          depthOkL_child qns2 (d - 1) 0 nd hdL2 h0,
                          ne_numkeys _ (neL_child qns2 0 nd hneL2 h0),
                          ⟨nd.1, by rw [h0]⟩, ?_⟩
                        have hdd : d - 1 + 1 = d := by omega
                        rw [hdd]
                        exact ⟨hnep2, hdp2, hk2, hup2'⟩
                      · have hcx : ctxOfStack
                            ((nd.2, 0) :: (BTree.branch qns2, 0) :: st2')
                            = childCtx
                                (ctxOfStack ((BTree.branch qns2, 0) :: st2'))
                                qns2 0 := rfl
                        have hrs2 : restStk ((BTree.branch qns2, 0) :: st2')
                            = restChildren
                                (ctxOfStack ((BTree.branch qns2, 0) :: st2'))
                                qns2 1 ++ restStk st2' := by
                          simp only [restStk]
                        have hca : childAt
                            (ctxOfStack ((BTree.branch qns2, 0) :: st2'))
                            qns2 0
                            = flattenCtx nd.2
                                (childCtx
                                  (ctxOfStack ((BTree.branch qns2, 0) :: st2'))
                                  qns2 0) := by
                          simp [childAt, h0]
                        rw [hcx, hrs2, ← List.append_assoc, ← hca,
                          ← restChildren_step _ _ _ hlen2, ← flatten_branch]
                        exact hcont
          · -- step to the next child of the same parent
            push_neg at hb
            obtain ⟨nd, hnd⟩ : ∃ nd, qns[qki + 1]? = some nd := by
              simp [List.getElem?_eq_getElem hb]
            have hca : childAt (ctxOfStack ((BTree.branch qns, qki) :: up2))
                qns (qki + 1)
                = flattenCtx nd.2
                    (childCtx (ctxOfStack ((BTree.branch qns, qki) :: up2))
                      qns (qki + 1)) := by
              simp [childAt, hnd]
            have hflat_ne : flattenCtx nd.2
                (childCtx (ctxOfStack ((BTree.branch qns, qki) :: up2))
                  qns (qki + 1)) ≠ [] :=
              flatten_ne (hgt nd.2) nd.2 _ le_rfl
                (neL_child qns (qki + 1) nd hneL hnd)
            have hrs_ne : restStk ((BTree.branch qns, qki) :: up2) ≠ [] := by
              rw [hre, restChildren_step _ _ _ hb, hca]
              intro hc
              exact hflat_ne
                ((List.append_eq_nil.mp ((List.append_eq_nil.mp hc).1)).1)
            constructor
            · intro h; exact absurd h hrs_ne
            · intro r rs hr
              refine ⟨nd.2, (BTree.branch qns, qki + 1) :: up2, ?_, ?_, ?_⟩
              · rw [sibling_cons_eq, if_neg (by omega)]
                simp only [hnd]
              · refine ⟨neL_child qns (qki + 1) nd hneL hnd,
                  depthOkL_child qns (d - 1) (qki + 1) nd hdL hnd,
                  ne_numkeys _ (neL_child qns (qki + 1) nd hneL hnd),
                  ⟨nd.1, by rw [hnd]⟩, ?_⟩
                have hdd : d - 1 + 1 = d := by omega
                rw [hdd]
                refine ⟨hneq, hdq, by simpa [numkeysT] using hb, ?_⟩
                cases up2 with
                | nil => exact trivial
                | cons g up3 =>
                    obtain ⟨gq, gki⟩ := g
                    exact hup
              · have hcx : ctxOfStack
                    ((nd.2, 0) :: (BTree.branch qns, qki + 1) :: up2)
                    = childCtx
                        (ctxOfStack ((BTree.branch qns, qki + 1) :: up2))
                        qns (qki + 1) := rfl
                have hki2 : ctxOfStack ((BTree.branch qns, qki + 1) :: up2)
                    = ctxOfStack ((BTree.branch qns, qki) :: up2) :=
                  ctxOfStack_ki _ _ _ _
                have hrs2 : restStk ((BTree.branch qns, qki + 1) :: up2)
                    = restChildren
                        (ctxOfStack ((BTree.branch qns, qki) :: up2))
                        qns (qki + 2) ++ restStk up2 := by
                  simp only [restStk, hki2]
                rw [hcx, hki2, hrs2, ← List.append_assoc, ← hca,
                  ← restChildren_step _ _ _ hb, ← hre]
                exact hr

/-- One BT_NEXT from a well-formed leaf position: fails (setting eof)
exactly when no record remains, else yields the next record and lands on
a well-formed leaf position with one record fewer remaining. -/
theorem next_spec (ns : List LNode) (ki : Nat) (up : CStack)
    (hinv : stkInv 1 ((BTree.leaf ns, ki) :: up)) :
    (restStk ((BTree.leaf ns, ki) :: up) = [] →
      btree_cursor_next ⟨(BTree.leaf ns, ki) :: up, true, false⟩
        = (BtRc.fail Errno.ENOENT,
            ⟨(BTree.leaf ns, ki) :: up, true, true⟩, none)) ∧
    (∀ r rs, restStk ((BTree.leaf ns, ki) :: up) = r :: rs →
      ∃ ns2 ki2 up2,
        btree_cursor_next ⟨(BTree.leaf ns, ki) :: up, true, false⟩
          = (BtRc.ok, ⟨(BTree.leaf ns2, ki2) :: up2, true, false⟩, some r) ∧
        stkInv 1 ((BTree.leaf ns2, ki2) :: up2) ∧
        restStk ((BTree.leaf ns2, ki2) :: up2) = rs) := by
  obtain ⟨hne, hd1, hki, hup⟩ := hinv
  have hkil : ki < ns.length := by simpa [numkeysT] using hki
  by_cases hb : ns.length ≤ ki + 1
  · have hdrop : ns.drop (ki + 1) = [] := List.drop_eq_nil_of_le hb
    have hre : restStk ((BTree.leaf ns, ki) :: up) = restStk up := by
      simp [restStk, hdrop]
    cases up with
    | nil =>
        constructor
        · intro _
          rw [cursor_next_leaf_eq, if_pos hb]
          rfl
        · intro r rs hr
          rw [hre] at hr
          exact absurd hr (by simp [restStk])
    | cons qf up2 =>
        obtain ⟨q, qki⟩ := qf
        have h2 : stkInv 2 ((q, qki) :: up2) := hup.2
        have hsib := sib_spec ((q, qki) :: up2) 2 (BTree.leaf ns, ki)
          (le_refl 2) h2
        cases hr2 : restStk ((q, qki) :: up2) with
        | nil =>
            constructor
            · intro _
              rw [cursor_next_leaf_eq, if_pos hb, hsib.1 hr2]
            · intro r rs hr
              rw [hre, hr2] at hr
              exact absurd hr (by simp)
        | cons r' rs' =>
            obtain ⟨p2, st2, hres, hinv2, hcont⟩ := hsib.2 r' rs' hr2
            constructor
            · intro h
              rw [hre, hr2] at h
              exact absurd h (by simp)
            · intro r rs hr
              rw [hre, hr2] at hr
              injection hr with e1 e2
              subst e1; subst e2
              obtain ⟨hne2, hd2, hk2, hup2⟩ := hinv2
              cases p2 with
              | branch b2 =>
                  exfalso
                  have hdb : depthOkT 1 (BTree.branch b2) = true := hd2
                  simp [depthOkT] at hdb
              | leaf ns2 =>
                  have hlen2 : 0 < ns2.length := by
                    simpa [numkeysT] using hk2
                  cases ns2 with
                  | nil => simp at hlen2
                  | cons n0 ns2' =>
                      simp only [flattenCtx, hgt, flattenGo, List.map_cons,
                        List.cons_append] at hcont
                      injection hcont with hr0 hrest
                      refine ⟨n0 :: ns2', 0, st2, ?_, ?_, ?_⟩
                      · rw [cursor_next_leaf_eq, if_pos hb, hres]
                        simp only [cursorRead, List.getElem?_cons_zero]
                        rw [hr0]
                      · exact ⟨hne2, hd2, hk2, hup2⟩
                      · simp only [restStk, List.drop_succ_cons,
                          List.drop_zero]
                        exact hrest
  · push_neg at hb
    have hlt : ki + 1 < ns.length := hb
    have hdrop : ns.drop (ki + 1) = ns[ki + 1] :: ns.drop (ki + 2) :=
      List.drop_eq_getElem_cons hlt
    have hre : restStk ((BTree.leaf ns, ki) :: up)
        = ((ctxOfStack ((BTree.leaf ns, ki) :: up)).pfx ++ ns[ki + 1].ksfx,
            ns[ki + 1].dval)
          :: ((ns.drop (ki + 2)).map
              (fun n => ((ctxOfStack ((BTree.leaf ns, ki) :: up)).pfx
                ++ n.ksfx, n.dval)) ++ restStk up) := by
      simp only [restStk, hdrop, List.map_cons, List.cons_append]
    have hcxki : ctxOfStack ((BTree.leaf ns, ki + 1) :: up)
        = ctxOfStack ((BTree.leaf ns, ki) :: up) := ctxOfStack_ki _ _ _ _
    constructor
    · intro h
      rw [hre] at h
      exact absurd h (by simp)
    · intro r rs hr
      rw [hre] at hr
      injection hr with e1 e2
      refine ⟨ns, ki + 1, up, ?_, ?_, ?_⟩
      · rw [cursor_next_leaf_eq, if_neg (by omega)]
        have hnd : ns[ki + 1]? = some ns[ki + 1] :=
          List.getElem?_eq_getElem hlt
        simp only [cursorRead, hnd]
        rw [show (ctxOfStack ((BTree.leaf ns, ki + 1) :: up)).pfx
            = (ctxOfStack ((BTree.leaf ns, ki) :: up)).pfx from by
              rw [hcxki], e1]
      · exact ⟨hne, hd1, by simpa [numkeysT] using hlt, by
          cases up with
          | nil => exact trivial
          | cons g up3 =>
              obtain ⟨gq, gki⟩ := g
              exact hup⟩
      · simp only [restStk, hcxki]
        exact e2

/-- Iterating BT_NEXT with one unit of fuel more than the number of
remaining records yields exactly those records' keys and ends with the
eof flag set on a still-initialized cursor. -/
theorem iter_spec : ∀ (n : Nat) (root : Option BTree) (ns : List LNode)
    (ki : Nat) (up : CStack),
    stkInv 1 ((BTree.leaf ns, ki) :: up) →
    (restStk ((BTree.leaf ns, ki) :: up)).length = n →
    (iterNextGo root (n + 1) ⟨(BTree.leaf ns, ki) :: up, true, false⟩).1
      = (restStk ((BTree.leaf ns, ki) :: up)).map Prod.fst ∧
    (iterNextGo root (n + 1)
        ⟨(BTree.leaf ns, ki) :: up, true, false⟩).2.eof = true ∧
    (iterNextGo root (n + 1)
        ⟨(BTree.leaf ns, ki) :: up, true, false⟩).2.inited = true := by
  intro n
  induction n with
  | zero =>
      intro root ns ki up hinv hlen
      have hrest : restStk ((BTree.leaf ns, ki) :: up) = [] :=
        List.eq_nil_of_length_eq_zero hlen
      have hnext := (next_spec ns ki up hinv).1 hrest
      have hget : btree_cursor_get root
          ⟨(BTree.leaf ns, ki) :: up, true, false⟩ CursorOp.BT_NEXT none
          = btree_cursor_next ⟨(BTree.leaf ns, ki) :: up, true, false⟩ := rfl
      refine ⟨?_, ?_, ?_⟩
      all_goals simp only [iterNextGo, hget, hnext]
      all_goals simp [hrest]
  | succ n ih =>
      intro root ns ki up hinv hlen
      cases hrest : restStk ((BTree.leaf ns, ki) :: up) with
      | nil => rw [hrest] at hlen; simp at hlen
      | cons r rs =>
          obtain ⟨ns2, ki2, up2, hres, hinv2, hrs2⟩ :=
            (next_spec ns ki up hinv).2 r rs hrest
          have hget : btree_cursor_get root
              ⟨(BTree.leaf ns, ki) :: up, true, false⟩ CursorOp.BT_NEXT none
              = btree_cursor_next
                  ⟨(BTree.leaf ns, ki) :: up, true, false⟩ := rfl
          have hlen2 : (restStk ((BTree.leaf ns2, ki2) :: up2)).length = n := by
            rw [hrs2]
            rw [hrest] at hlen
            simpa using hlen
          obtain ⟨ih1, ih2, ih3⟩ := ih root ns2 ki2 up2 hinv2 hlen2
          have hunf : iterNextGo root (n + 1 + 1)
              ⟨(BTree.leaf ns, ki) :: up, true, false⟩
              = (r.1 :: (iterNextGo root (n + 1)
                    ⟨(BTree.leaf ns2, ki2) :: up2, true, false⟩).1,
                  (iterNextGo root (n + 1)
                    ⟨(BTree.leaf ns2, ki2) :: up2, true, false⟩).2) := by
            rw [iterNextGo, hget, hres]
          refine ⟨?_, ?_, ?_⟩ <;> rw [hunf]
          · rw [ih1, hrs2, List.map_cons]
          · exact ih2
          · exact ih3

/-- The leftmost descent of btree_cursor_first lands on the first leaf
at index 0, yielding a well-formed stack whose records-from-here are the
whole subtree content followed by what remains above the ancestors. -/
theorem first_go_spec : ∀ (fuel d : Nat) (t : BTree) (anc : CStack),
    hgt t ≤ fuel → neT t = true → depthOkT d t = true →
    stkInvUnder d t anc →
    ∃ ns2 up2,
      cursorSearchGo fuel t (ctxOfStack ((t, 0) :: anc)) none anc
        = some ((BTree.leaf ns2, 0) :: up2) ∧
      stkInv 1 ((BTree.leaf ns2, 0) :: up2) ∧
      (ns2.map (fun n =>
          ((ctxOfStack ((BTree.leaf ns2, 0) :: up2)).pfx ++ n.ksfx, n.dval)))
        ++ restStk up2
        = flattenCtx t (ctxOfStack ((t, 0) :: anc)) ++ restStk anc := by
  intro fuel
  induction fuel with
  | zero => intro d t anc h; cases t <;> simp [hgt] at h
  | succ fuel ih =>
      intro d t anc hle hne hdk hund
      cases t with
      | leaf ns =>
          have hd1 : d = 1 := by simpa [depthOkT] using hdk
          subst hd1
          refine ⟨ns, anc, rfl, ?_, ?_⟩
          · refine ⟨hne, by simp [depthOkT], ne_numkeys _ hne, ?_⟩
            cases anc with
            | nil => exact trivial
            | cons g anc2 =>
                obtain ⟨gq, gki⟩ := g
                exact hund
          · simp [flattenCtx, hgt, flattenGo]
      | branch ns =>
          have hneb := hne
          simp only [neT, Bool.and_eq_true, Bool.not_eq_true',
            List.isEmpty_eq_false] at hneb
          have hlen : 0 < ns.length := List.length_pos_iff_ne_nil.mpr hneb.1
          obtain ⟨nd, h0⟩ : ∃ nd, ns[0]? = some nd := by
            simp [List.getElem?_eq_getElem hlen]
          have hdk' := hdk
          simp only [depthOkT, Bool.and_eq_true, decide_eq_true_eq] at hdk'
          have hchild_ne : neT nd.2 = true := neL_child ns 0 nd hneb.2 h0
          have hchild_dk : depthOkT (d - 1) nd.2 = true :=
            depthOkL_child ns (d - 1) 0 nd hdk'.2 h0
          have hchild_h : hgt nd.2 ≤ fuel :=
            le_trans (hgt_child_le ns 0 nd h0) (by simpa [hgt] using hle)
          have hund2 : stkInvUnder (d - 1) nd.2
              ((BTree.branch ns, 0) :: anc) := by
            refine ⟨⟨nd.1, by rw [h0]⟩, ?_⟩
            have hdd : d - 1 + 1 = d := by omega
            rw [hdd]
            refine ⟨hne, hdk, by simpa [numkeysT] using hlen, ?_⟩
            cases anc with
            | nil => exact trivial
            | cons g anc2 =>
                obtain ⟨gq, gki⟩ := g
                exact hund
          obtain ⟨ns2, up2, hres, hinv2, hcont⟩ :=
            ih (d - 1) nd.2 ((BTree.branch ns, 0) :: anc)
              hchild_h hchild_ne hchild_dk hund2
          refine ⟨ns2, up2, ?_, hinv2, ?_⟩
          · have hstep : cursorSearchGo (fuel + 1) (BTree.branch ns)
                (ctxOfStack ((BTree.branch ns, 0) :: anc)) none anc
                = cursorSearchGo fuel nd.2
                    (childCtx (ctxOfStack ((BTree.branch ns, 0) :: anc)) ns 0)
                    none ((BTree.branch ns, 0) :: anc) := by
              simp only [cursorSearchGo, h0]
            rw [hstep]
            have hcx : childCtx (ctxOfStack ((BTree.branch ns, 0) :: anc))
                ns 0
                = ctxOfStack ((nd.2, 0) :: (BTree.branch ns, 0) :: anc) := rfl
            rw [hcx]
            exact hres
          · have hcx2 : ctxOfStack ((nd.2, 0) :: (BTree.branch ns, 0) :: anc)
                = childCtx (ctxOfStack ((BTree.branch ns, 0) :: anc))
                    ns 0 := rfl
            have hrsb : restStk ((BTree.branch ns, 0) :: anc)
                = restChildren (ctxOfStack ((BTree.branch ns, 0) :: anc))
                    ns 1 ++ restStk anc := by
              simp only [restStk]
            have hca : childAt (ctxOfStack ((BTree.branch ns, 0) :: anc)) ns 0
                = flattenCtx nd.2
                    (childCtx (ctxOfStack ((BTree.branch ns, 0) :: anc))
                      ns 0) := by
              simp [childAt, h0]
            rw [hcont, hcx2, hrsb, ← List.append_assoc, ← hca,
              ← restChildren_step _ _ _ hlen, ← flatten_branch]

/-- C2: on every well-formed database tree (nonempty pages, uniform leaf
depth, keys in canonical order — the invariants of engine-built trees),
the cursor traversal BT_FIRST ; BT_NEXT* yields exactly the present
keys, each once, in flatten order (first conjunct), hence in strictly
increasing canonical order (second conjunct), and the traversal
terminates: after the last key the cursor reaches eof and the next
BT_NEXT fails with NOT-FOUND (last conjuncts). -/
theorem claim_C2_cursor_traversal (t : BTree)
    (hne : neT t = true) (hbal : depthOkT (hgt t) t = true)
    (hsort : strictInc ((flattenT t).map Prod.fst) = true) :
    (traverseC2 (some t) (flattenT t).length).1
      = (flattenT t).map Prod.fst ∧
    strictInc (traverseC2 (some t) (flattenT t).length).1 = true ∧
    (traverseC2 (some t) (flattenT t).length).2.eof = true ∧
    btree_cursor_get (some t) (traverseC2 (some t) (flattenT t).length).2
        CursorOp.BT_NEXT none
      = (BtRc.fail Errno.ENOENT,
          (traverseC2 (some t) (flattenT t).length).2, none) := by
  obtain ⟨ns2, up2, hres, hinv2, hcont⟩ :=
    first_go_spec (hgt t) (hgt t) t [] le_rfl hne hbal trivial
  have hres' : cursorSearchGo (hgt t) t rootCtx none []
      = some ((BTree.leaf ns2, 0) :: up2) := hres
  have hcont' : ns2.map (fun n =>
        ((ctxOfStack ((BTree.leaf ns2, 0) :: up2)).pfx ++ n.ksfx, n.dval))
      ++ restStk up2 = flattenT t := by
    simpa [restStk, ctxOfStack, flattenT] using hcont
  obtain ⟨hinv2ne, hinv2d, hinv2k, hinv2up⟩ := hinv2
  cases ns2 with
  | nil => simp [numkeysT] at hinv2k
  | cons n0 ns2tl =>
      have hinv2' : stkInv 1 ((BTree.leaf (n0 :: ns2tl), 0) :: up2) :=
        ⟨hinv2ne, hinv2d, hinv2k, hinv2up⟩
      have hfirst : btree_cursor_get (some t) ⟨[], false, false⟩
          CursorOp.BT_FIRST none
          = (BtRc.ok, ⟨(BTree.leaf (n0 :: ns2tl), 0) :: up2, true, false⟩,
              some ((ctxOfStack ((BTree.leaf (n0 :: ns2tl), 0) :: up2)).pfx
                  ++ n0.ksfx, n0.dval)) := by
        show btree_cursor_first (some t) ⟨[], false, false⟩ = _
        simp only [btree_cursor_first, hres', cursorRead,
          List.getElem?_cons_zero]
      have hflat : flattenT t
          = ((ctxOfStack ((BTree.leaf (n0 :: ns2tl), 0) :: up2)).pfx
              ++ n0.ksfx, n0.dval)
            :: restStk ((BTree.leaf (n0 :: ns2tl), 0) :: up2) := by
        rw [← hcont']
        simp [restStk]
      have hM : (flattenT t).length
          = (restStk ((BTree.leaf (n0 :: ns2tl), 0) :: up2)).length + 1 := by
        rw [hflat]; simp
      obtain ⟨hit1, hit2, hit3⟩ := iter_spec
        (restStk ((BTree.leaf (n0 :: ns2tl), 0) :: up2)).length (some t)
        (n0 :: ns2tl) 0 up2 hinv2' rfl
      have htrav : traverseC2 (some t) (flattenT t).length
          = (((ctxOfStack ((BTree.leaf (n0 :: ns2tl), 0) :: up2)).pfx
                ++ n0.ksfx)
              :: (iterNextGo (some t)
                  ((restStk
                    ((BTree.leaf (n0 :: ns2tl), 0) :: up2)).length + 1)
                  ⟨(BTree.leaf (n0 :: ns2tl), 0) :: up2, true, false⟩).1,
              (iterNextGo (some t)
                  ((restStk
                    ((BTree.leaf (n0 :: ns2tl), 0) :: up2)).length + 1)
                  ⟨(BTree.leaf (n0 :: ns2tl), 0) :: up2, true, false⟩).2) := by
        rw [traverseC2, hfirst, hM]
      have hc1 : (traverseC2 (some t) (flattenT t).length).1
          = (flattenT t).map Prod.fst := by
        rw [htrav, hflat, List.map_cons, hit1]
      have heof : (traverseC2 (some t) (flattenT t).length).2.eof = true := by
        rw [htrav]; exact hit2
      have hini : (traverseC2 (some t) (flattenT t).length).2.inited
          = true := by
        rw [htrav]; exact hit3
      refine ⟨hc1, by rw [hc1]; exact hsort, heof, ?_⟩
      simp [btree_cursor_get, btree_cursor_next, hini, heof]

theorem claim_C2_cursor_traversal_witness :
    neT tC2 = true ∧ depthOkT (hgt tC2) tC2 = true ∧
    strictInc ((flattenT tC2).map Prod.fst) = true ∧
    (traverseC2 (some tC2) (flattenT tC2).length).1
      = [[1], [2], [3, 1], [3, 5], [3, 9], [4]] :=
  ⟨rfl, rfl, rfl,
   by rw [(claim_C2_cursor_traversal tC2 rfl rfl rfl).1]; rfl⟩

/-! ## Binary search correctness on a sorted page (claim C3) -/

theorem searchNodeGo_succ (cmpAt : Nat → Int) (fuel : Nat)
    (low high : Int) (i0 : Nat) (rc0 : Int) :
    searchNodeGo cmpAt (fuel + 1) low high i0 rc0 =
      if low ≤ high then
        (if cmpAt ((low + high) / 2).toNat = 0 then
          (((low + high) / 2).toNat, cmpAt ((low + high) / 2).toNat)
         else if 0 < cmpAt ((low + high) / 2).toNat then
          searchNodeGo cmpAt fuel ((((low + high) / 2).toNat : Int) + 1) high
            ((low + high) / 2).toNat (cmpAt ((low + high) / 2).toNat)
         else
          searchNodeGo cmpAt fuel low ((((low + high) / 2).toNat : Int) - 1)
            ((low + high) / 2).toNat (cmpAt ((low + high) / 2).toNat))
      else (i0, rc0) := rfl

/-- The while loop of btree_search_node homes in on an exact match: when
index j compares equal and every index left of j compares greater and
right of j (within the live interval) compares less, the loop returns
(j, 0). -/
theorem searchNodeGo_exact : ∀ (fuel : Nat) (cmpAt : Nat → Int)
    (low high : Int) (i0 : Nat) (rc0 : Int) (j : Nat),
    cmpAt j = 0 →
    (∀ m : Nat, m < j → 0 < cmpAt m) →
    (∀ m : Nat, j < m → (m : Int) ≤ high → cmpAt m < 0) →
    0 ≤ low → low ≤ (j : Int) → (j : Int) ≤ high →
    (high - low).toNat < fuel →
    searchNodeGo cmpAt fuel low high i0 rc0 = (j, 0) := by
  intro fuel
  induction fuel with
  | zero =>
      intro cmpAt low high i0 rc0 j _ _ _ _ _ _ hfuel
      omega
  | succ fuel ih =>
      intro cmpAt low high i0 rc0 j hj hlt hgt h0 hlj hjh hfuel
      have hlh : low ≤ high := le_trans hlj hjh
      have h0h : 0 ≤ high := le_trans (le_trans h0 hlj) hjh
      obtain ⟨L, rfl⟩ : ∃ L : Nat, low = (L : Int) :=
        ⟨low.toNat, (Int.toNat_of_nonneg h0).symm⟩
      obtain ⟨H, rfl⟩ : ∃ H : Nat, high = (H : Int) :=
        ⟨high.toNat, (Int.toNat_of_nonneg h0h).symm⟩
      have hmid : (((L : Int) + (H : Int)) / 2).toNat = (L + H) / 2 := by
        omega
      rw [searchNodeGo_succ, if_pos hlh, hmid]
      have hLj : L ≤ j := by exact_mod_cast hlj
      have hjH : j ≤ H := by exact_mod_cast hjh
      have hmidL : L ≤ (L + H) / 2 := by omega
      have hmidH : (L + H) / 2 ≤ H := by omega
      rcases lt_trichotomy (cmpAt ((L + H) / 2)) 0 with hc | hc | hc
      · have hji2 : j < (L + H) / 2 := by
          rcases Nat.lt_trichotomy ((L + H) / 2) j with h | h | h
          · exact absurd (hlt _ h) (by omega)
          · rw [h] at hc; omega
          · exact h
        rw [if_neg (by omega), if_neg (by omega)]
        apply ih
        · exact hj
        · exact hlt
        · intro m hm hm2
          exact hgt m hm (by omega)
        · exact h0
        · exact hlj
        · omega
        · omega
      · have hji2 : (L + H) / 2 = j := by
          rcases Nat.lt_trichotomy ((L + H) / 2) j with h | h | h
          · exact absurd (hlt _ h) (by omega)
          · exact h
          · exact absurd (hgt _ h (by exact_mod_cast hmidH)) (by omega)
        rw [if_pos hc, hji2, hj]
      · have hji2 : (L + H) / 2 < j := by
          rcases Nat.lt_trichotomy ((L + H) / 2) j with h | h | h
          · exact h
          · rw [h] at hc; omega
          · exact absurd (hgt _ h (by exact_mod_cast hmidH)) (by omega)
        rw [if_neg (by omega), if_pos hc]
        apply ih
        · exact hj
        · exact hlt
        · exact hgt
        · omega
        · omega
        · exact hjh
        · omega

theorem btree_search_node_leaf_eq (keys : List Bytes) (pfx key : Bytes) :
    btree_search_node true keys pfx key =
      (if 0 < (searchNodeGo (fun i => bt_cmp key (keys.getD i []) pfx)
          (keys.length + 2) 0 ((keys.length : Int) - 1) 0 0).2 then
        (if keys.length ≤ (searchNodeGo
              (fun i => bt_cmp key (keys.getD i []) pfx)
              (keys.length + 2) 0 ((keys.length : Int) - 1) 0 0).1 + 1
         then none
         else some ((searchNodeGo (fun i => bt_cmp key (keys.getD i []) pfx)
              (keys.length + 2) 0 ((keys.length : Int) - 1) 0 0).1 + 1,
            false))
       else some ((searchNodeGo (fun i => bt_cmp key (keys.getD i []) pfx)
            (keys.length + 2) 0 ((keys.length : Int) - 1) 0 0).1,
          (searchNodeGo (fun i => bt_cmp key (keys.getD i []) pfx)
            (keys.length + 2) 0 ((keys.length : Int) - 1) 0 0).2 = 0)) := rfl

/-- btree_search_node on a leaf finds an exact match whenever the page
holds one and compares consistently around it. -/
theorem btree_search_node_exact (keys : List Bytes) (pfx key : Bytes)
    (j : Nat)
    (hj : bt_cmp key (keys.getD j []) pfx = 0)
    (hlt : ∀ m : Nat, m < j → 0 < bt_cmp key (keys.getD m []) pfx)
    (hgt : ∀ m : Nat, j < m → m < keys.length →
      bt_cmp key (keys.getD m []) pfx < 0)
    (hjlen : j < keys.length) :
    btree_search_node true keys pfx key = some (j, true) := by
  have hrun : searchNodeGo (fun i => bt_cmp key (keys.getD i []) pfx)
      (keys.length + 2) 0 ((keys.length : Int) - 1) 0 0 = (j, 0) := by
    apply searchNodeGo_exact
    · exact hj
    · exact hlt
    · intro m hm hm2
      exact hgt m hm (by omega)
    · omega
    · omega
    · omega
    · omega
  rw [btree_search_node_leaf_eq, hrun]
  norm_num

theorem strictInc_head_lt : ∀ (l : List Bytes) (a : Bytes),
    strictInc (a :: l) = true →
    ∀ k, k < l.length → memncmp a (l.getD k []) < 0 := by
  intro l
  induction l with
  | nil => intro a _ k hk; simp at hk
  | cons b m ih =>
      intro a h k hk
      simp only [strictInc, Bool.and_eq_true, decide_eq_true_eq] at h
      obtain ⟨hab, hrest⟩ := h
      cases k with
      | zero => simpa using hab
      | succ k =>
          have hk' : k < m.length := by simpa using hk
          have h2 := ih b (by
            cases m with
            | nil => rfl
            | cons c m2 =>
                simp only [strictInc, Bool.and_eq_true] at hrest ⊢
                exact hrest) k hk'
          have h2' : memncmp b (m.getD k []) < 0 := by
            cases m with
            | nil => simp at hk'
            | cons c m2 => exact h2
          rw [memncmp_eq_lexCmp] at hab h2' ⊢
          simpa using lexCmp_lt_trans a b (m.getD k []) hab h2'

theorem strictInc_tail (a : Bytes) (l : List Bytes)
    (h : strictInc (a :: l) = true) : strictInc l = true := by
  cases l with
  | nil => rfl
  | cons b m =>
      simp only [strictInc, Bool.and_eq_true] at h
      exact h.2

theorem strictInc_pairwise : ∀ (l : List Bytes), strictInc l = true →
    ∀ i j, i < j → j < l.length →
    memncmp (l.getD i []) (l.getD j []) < 0 := by
  intro l
  induction l with
  | nil => intro _ i j _ hj; simp at hj
  | cons a m ih =>
      intro h i j hij hj
      cases i with
      | zero =>
          cases j with
          | zero => omega
          | succ j =>
              have := strictInc_head_lt m a h j (by simpa using hj)
              simpa using this
      | succ i =>
          cases j with
          | zero => omega
          | succ j =>
              have := ih (strictInc_tail a m h) i j (by omega)
                (by simpa using hj)
              simpa using this

theorem insertIdx_eraseIdx : ∀ (ns : List LNode) (j : Nat) (nd : LNode),
    ns[j]? = some nd → (ns.eraseIdx j).insertIdx j nd = ns := by
  intro ns
  induction ns with
  | nil => intro j nd h; simp at h
  | cons a l ih =>
      intro j nd h
      cases j with
      | zero =>
          simp at h
          subst h
          simp [List.eraseIdx]
      | succ j =>
          simp only [List.getElem?_cons_succ] at h
          simp [List.eraseIdx, List.insertIdx_succ_cons, ih j nd h]

theorem map_sum_eraseIdx : ∀ (ns : List LNode) (j : Nat) (nd : LNode)
    (f : LNode → Nat), ns[j]? = some nd →
    (ns.map f).sum = ((ns.eraseIdx j).map f).sum + f nd := by
  intro ns
  induction ns with
  | nil => intro j nd f h; simp at h
  | cons a l ih =>
      intro j nd f h
      cases j with
      | zero =>
          simp at h
          subst h
          simp [List.eraseIdx]
          omega
      | succ j =>
          simp only [List.getElem?_cons_succ] at h
          simp [List.eraseIdx, ih j nd f h]
          omega

/-- Every successful btree_txn_put increments the entries counter by
exactly one: both success paths (in-place add and split) run
bt->meta.entries++ unconditionally (btree.c lines 2508-2509). -/
theorem put_entries_succ (db : DbT) (txn : TxnT) (key data : Bytes)
    (db2 : DbT) (txn2 : TxnT)
    (h : btree_txn_put db txn key data = (BtRc.ok, db2, txn2)) :
    db2.entries = db.entries + 1 := by
  simp only [btree_txn_put] at h
  by_cases h1 : txn.rdonly = true
  · rw [if_pos h1] at h
    exact absurd (congrArg Prod.fst h) (fun hh => BtRc.noConfusion hh)
  · rw [if_neg h1] at h
    by_cases h2 : key.length = 0 ∨ MAXKEYSIZE < key.length
    · rw [if_pos h2] at h
      exact absurd (congrArg Prod.fst h) (fun hh => BtRc.noConfusion hh)
    · rw [if_neg h2] at h
      by_cases h3 : txn.errored = true
      · rw [if_pos h3] at h
        exact absurd (congrArg Prod.fst h) (fun hh => BtRc.noConfusion hh)
      · rw [if_neg h3] at h
        cases htr : txn.root with
        | none =>
            simp only [htr] at h
            repeat' split at h
            all_goals simp only [Prod.mk.injEq] at h
            all_goals
              first
                | exact absurd h.1 (fun hh => BtRc.noConfusion hh)
                | (obtain ⟨-, hd, -⟩ := h
                   subst hd
                   rfl)
        | some t =>
            simp only [htr] at h
            cases hspg : searchPageGo (hgt t) t rootCtx (some key) [] with
            | none =>
                simp only [hspg] at h
                exact absurd (congrArg Prod.fst h)
                  (fun hh => BtRc.noConfusion hh)
            | some tri =>
                obtain ⟨ns0, path0, cx0⟩ := tri
                simp only [hspg] at h
                cases hsn : btree_search_node true (ns0.map LNode.ksfx)
                    cx0.pfx key with
                | some p =>
                    obtain ⟨ki, ex⟩ := p
                    simp only [hsn] at h
                    repeat' split at h
                    all_goals simp only [Prod.mk.injEq] at h
                    all_goals
                      first
                        | exact absurd h.1 (fun hh => BtRc.noConfusion hh)
                        | (obtain ⟨-, hd, -⟩ := h
                           subst hd
                           rfl)
                | none =>
                    simp only [hsn] at h
                    repeat' split at h
                    all_goals simp only [Prod.mk.injEq] at h
                    all_goals
                      first
                        | exact absurd h.1 (fun hh => BtRc.noConfusion hh)
                        | (obtain ⟨-, hd, -⟩ := h
                           subst hd
                           rfl)

theorem rebuild_append : ∀ (xs ys : List PFrame) (p : BTree),
    rebuild (xs ++ ys) p = rebuild ys (rebuild xs p) := by
  intro xs
  induction xs with
  | nil => intro ys p; rfl
  | cons f xs ih =>
      intro ys p
      obtain ⟨ns, i⟩ := f
      simp only [List.cons_append, rebuild]
      exact ih ys _

theorem set_getElem_self : ∀ (ns : List (Bytes × BTree)) (i : Nat)
    (nd : Bytes × BTree), ns[i]? = some nd →
    ns.set i (nd.1, nd.2) = ns := by
  intro ns
  induction ns with
  | nil => intro i nd h; simp at h
  | cons a l ih =>
      intro i nd h
      cases i with
      | zero =>
          simp at h
          subst h
          simp
      | succ i =>
          simp only [List.getElem?_cons_succ] at h
          simp [ih i nd h]

/-- The modify-descent of btree_search_page visits a root-to-leaf spine:
re-plugging the (unmodified) leaf back through the recorded frames
rebuilds the original tree. -/
theorem searchPage_rebuild : ∀ (fuel : Nat) (t : BTree) (cx : Ctx)
    (key : Option Bytes) (acc : List PFrame) (ns : List LNode)
    (path : List PFrame) (cx2 : Ctx),
    searchPageGo fuel t cx key acc = some (ns, path, cx2) →
    ∃ pf, path = pf ++ acc ∧ rebuild pf (.leaf ns) = t := by
  intro fuel
  induction fuel with
  | zero =>
      intro t cx key acc ns path cx2 h
      simp [searchPageGo] at h
  | succ fuel ih =>
      intro t cx key acc ns path cx2 h
      cases t with
      | leaf ns0 =>
          simp only [searchPageGo, Option.some.injEq, Prod.mk.injEq] at h
          obtain ⟨rfl, rfl, rfl⟩ := h
          exact ⟨[], by simp, rfl⟩
      | branch bs =>
          simp only [searchPageGo] at h
          split at h
          · exact absurd h (by simp)
          · rename_i nd2 heq
            obtain ⟨pf2, hp2, hr2⟩ := ih _ _ _ _ _ _ _ h
            have step : ∀ i0 : Nat, bs[i0]? = some nd2 →
                ∃ pf, pf2 ++ (bs, i0) :: acc = pf ++ acc ∧
                  rebuild pf (BTree.leaf ns) = BTree.branch bs := by
              intro i0 h0
              refine ⟨pf2 ++ [(bs, i0)], by simp, ?_⟩
              rw [rebuild_append, hr2]
              simp only [rebuild, h0]
              rw [set_getElem_self bs i0 nd2 h0]
            rw [hp2]
            exact step _ heq

/-- C3: putting a key/value binding the tree already holds — as the
second of two identical puts does — leaves the tree, hence every get and
traversal, unchanged: the modify-descent lands on the leaf carrying the
key, the exact match is deleted and the identical node (including its
overflow flag, so overflow-sized values are covered) is re-inserted at
the same slot, and re-plugging the spine rebuilds the original root.
Yet the entries counter still increments, and does so on EVERY
successful put (second conjunct, with no hypotheses on the store):
entries counts successful put calls, not distinct keys.  The hypotheses
of the first conjunct render the scenario on an engine-built tree of any
depth: the reached page is sorted, holds prefix ++ suffix = key with the
data and the flag the engine stores for that payload, and keeps
prefix-length bytes spare (the room test at btree.c line 2497 measures
the full key while the freed node stored only the suffix). -/
theorem claim_C3_put_overwrite (db : DbT) (txn : TxnT) (key data : Bytes)
    (t : BTree) (ns : List LNode) (path : List PFrame) (cx : Ctx)
    (j : Nat) (nd : LNode)
    (hro : txn.rdonly = false) (herr : txn.errored = false)
    (hroot : txn.root = some t)
    (hsp : searchPageGo (hgt t) t rootCtx (some key) []
      = some (ns, path, cx))
    (hsort : strictInc (ns.map LNode.ksfx) = true)
    (hnd : ns[j]? = some nd)
    (hkey : cx.pfx ++ nd.ksfx = key) (hdata : nd.dval = data)
    (hbig : nd.big = decide (db.psize / BT_MINKEYS ≤ data.length))
    (hklen0 : key.length ≠ 0) (hklenM : key.length ≤ MAXKEYSIZE)
    (hfit : PAGEHDRSZ + (ns.map (fun n => leafNodeSz n + INDXSZ)).sum
        + cx.pfx.length ≤ db.psize) :
    btree_txn_put db txn key data
      = (BtRc.ok, { db with entries := db.entries + 1 }, txn) ∧
    (∀ (db0 : DbT) (txn0 : TxnT) (k0 d0 : Bytes) (db3 : DbT) (txn3 : TxnT),
      btree_txn_put db0 txn0 k0 d0 = (BtRc.ok, db3, txn3) →
      db3.entries = db0.entries + 1) := by
  refine ⟨?_, fun db0 txn0 k0 d0 db3 txn3 hput =>
    put_entries_succ db0 txn0 k0 d0 db3 txn3 hput⟩
  obtain ⟨hjl, hjv⟩ := List.getElem?_eq_some_iff.mp hnd
  have hdropk : key.drop cx.pfx.length = nd.ksfx := by
    rw [← hkey]
    exact List.drop_left _ _
  have hklen : key.length = cx.pfx.length + nd.ksfx.length := by
    rw [← hkey]
    simp
  have hkm : ∀ m, ∀ h : m < ns.length,
      (ns.map LNode.ksfx).getD m [] = (ns[m]).ksfx := by
    intro m h
    rw [List.getD_eq_getElem _ _ (by simpa using h), List.getElem_map]
  have hj0 : bt_cmp key ((ns.map LNode.ksfx).getD j []) cx.pfx = 0 := by
    show memncmp (key.drop cx.pfx.length) ((ns.map LNode.ksfx).getD j []) = 0
    rw [hdropk, hkm j hjl, hjv, memncmp_eq_lexCmp, lexCmp_self]
  have hltm : ∀ m, m < j →
      0 < bt_cmp key ((ns.map LNode.ksfx).getD m []) cx.pfx := by
    intro m hm
    show 0 < memncmp (key.drop cx.pfx.length) ((ns.map LNode.ksfx).getD m [])
    have hp := strictInc_pairwise (ns.map LNode.ksfx) hsort m j hm
      (by simpa using hjl)
    rw [hkm j hjl, hjv] at hp
    rw [memncmp_eq_lexCmp] at hp
    rw [hdropk, memncmp_eq_lexCmp,
      lexCmp_swap ((ns.map LNode.ksfx).getD m []) nd.ksfx]
    omega
  have hgtm : ∀ m, j < m → m < (ns.map LNode.ksfx).length →
      bt_cmp key ((ns.map LNode.ksfx).getD m []) cx.pfx < 0 := by
    intro m hm hml
    show memncmp (key.drop cx.pfx.length) ((ns.map LNode.ksfx).getD m []) < 0
    have hp := strictInc_pairwise (ns.map LNode.ksfx) hsort j m hm hml
    rw [hkm j hjl, hjv] at hp
    rw [hdropk]
    exact hp
  have hsearch := btree_search_node_exact (ns.map LNode.ksfx) cx.pfx
    key j hj0 hltm hgtm (by simpa using hjl)
  have hsd : (ns.map (fun n => leafNodeSz n + INDXSZ)).sum
      = ((ns.eraseIdx j).map (fun n => leafNodeSz n + INDXSZ)).sum
        + (leafNodeSz nd + INDXSZ) :=
    map_sum_eraseIdx ns j nd _ hnd
  have hfreed_le : leafNodeSz nd + INDXSZ
      ≤ (ns.map (fun n => leafNodeSz n + INDXSZ)).sum := by
    apply List.single_le_sum (fun x _ => Nat.zero_le x)
    exact List.mem_map_of_mem _ (hjv ▸ List.getElem_mem hjl)
  have hble : bt_leaf_size db.psize key data
      ≤ leafNodeSz nd + INDXSZ + cx.pfx.length := by
    by_cases hc : db.psize / BT_MINKEYS ≤ data.length
    · have hb : nd.big = true := by
        rw [hbig]
        exact decide_eq_true hc
      have h1 : bt_leaf_size db.psize key data
          = NODESIZE + key.length + data.length
            - (data.length - PGNOSZ) + INDXSZ := by
        simp only [bt_leaf_size]
        rw [if_pos hc]
      have h2 : leafNodeSz nd = NODESIZE + nd.ksfx.length + PGNOSZ := by
        simp [leafNodeSz, hb]
      omega
    · have hb : nd.big = false := by
        rw [hbig]
        exact decide_eq_false hc
      have h1 : bt_leaf_size db.psize key data
          = NODESIZE + key.length + data.length + INDXSZ := by
        simp only [bt_leaf_size]
        rw [if_neg hc]
      have h2 : leafNodeSz nd = NODESIZE + nd.ksfx.length + data.length := by
        simp [leafNodeSz, hb, hdata]
      omega
  have hroomA : ¬ (sizeLeftLeaf db.psize (btree_del_node_L ns j)
      < bt_leaf_size db.psize key data) := by
    simp only [btree_del_node_L, sizeLeftLeaf]
    omega
  have hnodesz : leafNodeSz nd = NODESIZE + nd.ksfx.length
      + (if nd.big then PGNOSZ else data.length) := by
    simp [leafNodeSz, hdata]
  have hadd : btree_add_node_L db.psize (btree_del_node_L ns j) j
      (key.drop cx.pfx.length) data false = some ns := by
    simp only [btree_add_node_L, Bool.false_or, ← hbig, hdropk]
    rw [if_neg (by
      simp only [btree_del_node_L, sizeLeftLeaf]
      rw [show NODESIZE + nd.ksfx.length
          + (if nd.big then PGNOSZ else data.length)
          = leafNodeSz nd from hnodesz.symm]
      omega)]
    rw [show (⟨nd.ksfx, data, nd.big⟩ : LNode) = nd from by rw [← hdata]]
    simp only [btree_del_node_L]
    rw [insertIdx_eraseIdx ns j nd hnd]
  obtain ⟨pf, hpf, hrb⟩ :=
    searchPage_rebuild (hgt t) t rootCtx (some key) [] ns path cx hsp
  rw [List.append_nil] at hpf
  rw [btree_txn_put, hro]
  rw [if_neg Bool.false_ne_true]
  rw [if_neg (show ¬ (key.length = 0 ∨ MAXKEYSIZE < key.length) by omega)]
  rw [herr, if_neg Bool.false_ne_true, hroot]
  simp only [hsp, hsearch, eq_self_iff_true, if_true]
  rw [if_neg hroomA]
  simp only [hadd]
  rw [hpf, hrb]
  cases txn with
  | mk r rd er =>
      dsimp only at hro herr hroot
      subst hro
      subst herr
      subst hroot
      rfl

/-- Two successful puts of the same key/value from an empty tree leave
the tree content identical, yet entries ends at 2, not 1: the counter
increments on the second put too, refuting the claim's "not on the
second". -/
theorem claim_C3_put_twice_counterexample :
    putC3_1.1 = BtRc.ok ∧ putC3_2.1 = BtRc.ok ∧
    putC3_2.2.2.root.map flattenT = putC3_1.2.2.root.map flattenT ∧
    putC3_1.2.1.entries = 1 ∧ putC3_2.2.1.entries = 2 :=
  ⟨rfl, rfl, rfl, rfl, rfl⟩

theorem claim_C3_put_overwrite_witness :
    (btree_txn_put dbW3 txnW3 [3, 5] [203]
      = (BtRc.ok, { dbW3 with entries := dbW3.entries + 1 }, txnW3)) ∧
    putC3_1.2.1.entries = dbC3.entries + 1 :=
  ⟨(claim_C3_put_overwrite dbW3 txnW3 [3, 5] [203] tC3w
      [⟨[1], [202], false⟩, ⟨[5], [203], false⟩] [(tC3wns, 1)]
      ⟨some [3, 1], some [3, 9], [3]⟩ 1 ⟨[5], [203], false⟩
      rfl rfl rfl rfl rfl rfl rfl rfl rfl (by decide) (by decide)
      (by decide)).1,
   (claim_C3_put_overwrite dbW3 txnW3 [3, 5] [203] tC3w
      [⟨[1], [202], false⟩, ⟨[5], [203], false⟩] [(tC3wns, 1)]
      ⟨some [3, 1], some [3, 9], [3]⟩ 1 ⟨[5], [203], false⟩
      rfl rfl rfl rfl rfl rfl rfl rfl rfl (by decide) (by decide)
      (by decide)).2
     dbC3 txnC3 [1] [7] putC3_1.2.1 putC3_1.2.2 rfl⟩
